import Mathlib

/-!
Shallow embedding of the LUMINARY_AI document RAG core.

Text is modelled as `List Char` (Python `str`); the external collaborators
(sentence-transformer embedder, md5 hashing, the Gemini generation calls and
the current timestamp) are passed in as explicit function parameters, since
they are external libraries invoked by the code, not part of the repository.
ChromaDB's persistent collection is modelled as a list of entries whose
nearest-neighbour `query` sorts by ascending distance under the collection's
default metric (squared L2) and truncates to `n_results`; floats are
modelled as exact rationals.
-/

set_option maxHeartbeats 1000000

abbrev Str := List Char

/-- Python's notion of ASCII whitespace, as used by `str.strip` / `str.split`. -/
def pyIsSpace (c : Char) : Bool :=
  c = ' ' || c = '\t' || c = '\n' || c = '\r' || c = '\x0b' || c = '\x0c'

/-- Python `s.strip()`: drop leading and trailing whitespace. -/
def pyStrip (s : Str) : Str :=
  ((s.dropWhile pyIsSpace).reverse.dropWhile pyIsSpace).reverse

/-- Helper for `pyWords`: scan left to right, accumulating the current word reversed. -/
def wordsAux : Str → Str → List Str
  | [], cur => if cur = [] then [] else [cur.reverse]
  | c :: rest, cur =>
    if pyIsSpace c then
      if cur = [] then wordsAux rest [] else cur.reverse :: wordsAux rest []
    else wordsAux rest (c :: cur)

/-- Python `s.split()` with no argument: split on whitespace runs, dropping empties. -/
def pyWords (s : Str) : List Str := wordsAux s []

/-- The two-newline paragraph separator. -/
def nl2 : Str := ['\n', '\n']

/-- Python `s.split("\n\n")`: leftmost-first non-overlapping split on a double newline. -/
def splitPara : Str → List Str
  | [] => [[]]
  | [c] => [[c]]
  | c1 :: c2 :: rest =>
    if c1 = '\n' ∧ c2 = '\n' then [] :: splitPara rest
    else
      match splitPara (c2 :: rest) with
      | [] => [[c1]]
      | p :: ps => (c1 :: p) :: ps

/-- Python `s.split("\n")`: split on each single newline. -/
def splitNl : Str → List Str
  | [] => [[]]
  | c :: rest =>
    if c = '\n' then [] :: splitNl rest
    else
      match splitNl rest with
      | [] => [[c]]
      | p :: ps => (c :: p) :: ps

/-- Python `"\n\n".join ps`. -/
def joinPara : List Str → Str
  | [] => []
  | [p] => p
  | p :: ps => p ++ nl2 ++ joinPara ps

/-- Python `" ".join ws`. -/
def joinSpace : List Str → Str
  | [] => []
  | [w] => w
  | w :: ws => w ++ ' ' :: joinSpace ws

/-- Whether the string contains the two-character sequence of a double newline. -/
def hasNl2 : Str → Bool
  | [] => false
  | [_] => false
  | c1 :: c2 :: rest => (c1 = '\n' && c2 = '\n') || hasNl2 (c2 :: rest)

/-- Python `l[-k:]` for a non-negative `k` (for `k = 0` this is the whole list). -/
def pyLastSlice (k : Nat) (l : List Str) : List Str :=
  if k = 0 then l else l.drop (l.length - k)

/-- Python `enumerate` starting at a given index. -/
def enumFrom {α : Type} : Nat → List α → List (Nat × α)
  | _, [] => []
  | n, a :: l => (n, a) :: enumFrom (n + 1) l

/-- Decimal rendering of a natural number, for the `f"{doc_id}_{chunk_id}"` ids. -/
def natStr (n : Nat) : Str := Nat.toDigits 10 n

/-- Values stored in the dynamic metadata dictionaries. -/
inductive PyVal where
  | s (v : Str)
  | i (v : Int)
deriving DecidableEq

/-- A Python dict built left to right: a later binding for a key overrides an earlier one. -/
abbrev PyDict := List (Str × PyVal)

/-- Dictionary lookup: the last binding of the key wins, as in a Python dict literal. -/
def PyDict.get (m : PyDict) (k : Str) : Option PyVal :=
  m.foldl (fun acc kv => if kv.1 = k then some kv.2 else acc) none

/-- Lookup of a string-typed value (`d[k]` where the stored value is a string). -/
def PyDict.getStr (m : PyDict) (k : Str) : Str :=
  match m.get k with
  | some (PyVal.s v) => v
  | _ => []

/-- Chunk record produced by `ChromaDBRAGTool._chunk_text`. -/
structure Chunk where
  chunk_id : Nat
  text : Str
  length : Nat
deriving DecidableEq

/-- Loop state of `_chunk_text`: emitted chunks, the running buffer, next chunk index. -/
structure CState where
  chunks : List Chunk
  cur : Str
  idx : Nat
deriving DecidableEq

/-- Overlap seed carried into the next chunk: the last `overlap // 5` whitespace-split
words of the just-closed buffer, joined by single spaces, when the buffer has strictly
more words than that; otherwise empty. -/
def ovText (overlap : Nat) (cur : Str) : Str :=
  let words := pyWords cur
  if words.length > overlap / 5 then joinSpace (pyLastSlice (overlap / 5) words) else []

/-- Loop body of `ChromaDBRAGTool._chunk_text` for one paragraph. -/
def chunkStep (chunk_size overlap : Nat) (st : CState) (para : Str) : CState :=
  if st.cur.length + para.length ≤ chunk_size then
    { st with cur := st.cur ++ para ++ nl2 }
  else if st.cur ≠ [] then
    { chunks := st.chunks ++ [⟨st.idx, pyStrip st.cur, st.cur.length⟩],
      cur := ovText overlap st.cur ++ '\n' :: (para ++ nl2),
      idx := st.idx + 1 }
  else
    { st with cur := para ++ nl2 }

/-- Final flush of `_chunk_text`: emit the remaining buffer when non-empty. -/
def chunkFinish (st : CState) : List Chunk :=
  if st.cur ≠ [] then st.chunks ++ [⟨st.idx, pyStrip st.cur, st.cur.length⟩] else st.chunks

/-- ChromaDBRAGTool._chunk_text: paragraph-aware chunker (split on double newline,
accumulate paragraphs up to `chunk_size` characters, word-based overlap seed). -/
def _chunk_text (text : Str) (chunk_size : Nat := 500) (overlap : Nat := 100) : List Chunk :=
  chunkFinish ((splitPara text).foldl (chunkStep chunk_size overlap) ⟨[], [], 0⟩)

/-- Loop of `DocumentProcessor.chunk_text`, with explicit fuel (the Python `while` loop
advances `start` by at least one character per iteration whenever `overlap < chunk_size`,
so `text.length + 1` units of fuel reproduce it exactly). -/
def fixedGo (text : Str) (chunk_size overlap : Nat) : Nat → Nat → List Str
  | 0, _ => []
  | fuel + 1, start =>
    if start < text.length then
      let e := min (start + chunk_size) text.length
      let chunk := pyStrip ((text.drop start).take (e - start))
      let rest := if text.length ≤ e then [] else fixedGo text chunk_size overlap fuel (e - overlap)
      (if chunk ≠ [] then [chunk] else []) ++ rest
    else []

namespace DocumentProcessor

/-- DocumentProcessor.chunk_text: fixed-window chunker (pure character-offset slicing
with a fixed overlap step), returning `[]` for empty or whitespace-only input. -/
def chunk_text (text : Str) (chunk_size : Nat := 1000) (overlap : Nat := 200) : List Str :=
  if text = [] || pyStrip text = [] then []
  else fixedGo text chunk_size overlap (text.length + 1) 0

end DocumentProcessor

/-- External collaborators of the RAG tool: the sentence-transformer embedder
(`encode`, deterministic for a fixed model) and the md5-based id derivation
(`hashlib.md5(content).hexdigest()[:16]`). -/
structure Ctx where
  embed : Str → List ℚ
  genId : Str → Str

/-- One stored chunk record of the ChromaDB collection. -/
structure Entry where
  id : Str
  embedding : List ℚ
  text : Str
  metadata : PyDict
deriving DecidableEq

abbrev Collection := List Entry

/-- Squared L2 distance, ChromaDB's default metric for a collection created
without an explicit space setting. -/
def sqDist (a b : List ℚ) : ℚ :=
  ((a.zip b).map (fun p => (p.1 - p.2) * (p.1 - p.2))).sum

/-- Ordering of query hits by ascending distance. -/
def distLe (a b : Entry × ℚ) : Prop := a.2 ≤ b.2

instance : DecidableRel distLe := fun a b => inferInstanceAs (Decidable (a.2 ≤ b.2))

/-- ChromaDB `collection.query`: restrict by the optional metadata equality
filter, order by ascending distance to the query embedding, keep `n_results`. -/
def Collection.queryNN (c : Collection) (qe : List ℚ) (n : Nat)
    (w : Option (Str × PyVal)) : List (Entry × ℚ) :=
  let matching := match w with
    | none => c
    | some kv => c.filter (fun e => e.metadata.get kv.1 = some kv.2)
  (List.insertionSort distLe (matching.map (fun e => (e, sqDist qe e.embedding)))).take n

/-- Registry entry recorded in `index["documents"][doc_id]`. -/
structure DocInfo where
  doc_id : Str
  title : Str
  metadata : PyDict
  added_at : Str
  chunk_count : Nat
  char_count : Nat
  word_count : Nat
deriving DecidableEq

/-- Durable state of the tool: the registry index (`index.json`), the saved
document bodies (`documents/{doc_id}.txt`) and the ChromaDB collection. -/
structure RAGState where
  index : List (Str × DocInfo)
  docs : List (Str × Str)
  collection : Collection
deriving DecidableEq

/-- Association-list lookup (Python dict read; keys are kept unique by the operations). -/
def assocGet {α : Type} : List (Str × α) → Str → Option α
  | [], _ => none
  | kv :: rest, k => if kv.1 = k then some kv.2 else assocGet rest k

/-- Association-list write (Python dict assignment: replace in place or append). -/
def assocSet {α : Type} : List (Str × α) → Str → α → List (Str × α)
  | [], k, v => [(k, v)]
  | kv :: rest, k, v => if kv.1 = k then (k, v) :: rest else kv :: assocSet rest k v

/-- Association-list delete (Python `del d[k]` / file removal). -/
def assocErase {α : Type} : List (Str × α) → Str → List (Str × α)
  | [], _ => []
  | kv :: rest, k => if kv.1 = k then rest else kv :: assocErase rest k

/-- Result dictionary of `add_document` (fields absent from a branch are `none`). -/
structure AddResult where
  success : Bool
  doc_id : Str
  message : Str
  title : Option Str
  chunks_created : Option Nat
  existing : Option Bool
deriving DecidableEq

/-- Provenance metadata attached to each chunk before the caller's metadata is splatted in. -/
def provMeta (doc_id title : Str) (c : Chunk) : PyDict :=
  [("doc_id".data, PyVal.s doc_id), ("title".data, PyVal.s title),
   ("chunk_index".data, PyVal.i c.chunk_id), ("length".data, PyVal.i c.length)]

/-- The collection record built for one chunk by `add_document`: id
`f"{doc_id}_{chunk_id}"`, the chunk embedding, the chunk text, and the
provenance metadata dict-splatted with the caller metadata (`**(metadata or {})`,
so a caller-supplied key overrides a same-named provenance key). -/
def chunkEntry (ctx : Ctx) (doc_id title : Str) (metadata : Option PyDict) (c : Chunk) : Entry :=
  { id := doc_id ++ '_' :: natStr c.chunk_id,
    embedding := ctx.embed c.text,
    text := c.text,
    metadata := provMeta doc_id title c ++ metadata.getD [] }

/-- ChromaDBRAGTool.add_document: reject an already-present id, otherwise save the
body, chunk, embed each chunk, add the chunk records to the collection and record
the registry summary. `now` stands for `datetime.now().isoformat()`. -/
def add_document (ctx : Ctx) (st : RAGState) (content title : Str)
    (metadata : Option PyDict) (docId : Option Str) (now : Str) : AddResult × RAGState :=
  let doc_id := match docId with
    | none => ctx.genId content
    | some d => d
  match assocGet st.index doc_id with
  | some _ =>
    ({ success := false, doc_id := doc_id, message := "Document already exists".data,
       title := none, chunks_created := none, existing := some true }, st)
  | none =>
    let docs1 := assocSet st.docs doc_id content
    let chunks := _chunk_text content 500 100
    let newEntries := chunks.map (chunkEntry ctx doc_id title metadata)
    let info : DocInfo :=
      { doc_id := doc_id, title := title, metadata := metadata.getD [],
        added_at := now, chunk_count := chunks.length, char_count := content.length,
        word_count := (pyWords content).length }
    ({ success := true, doc_id := doc_id,
       message := "Document '".data ++ title ++ "' added successfully".data,
       title := some title, chunks_created := some chunks.length, existing := none },
     { index := assocSet st.index doc_id info, docs := docs1,
       collection := st.collection ++ newEntries })

/-- One formatted search hit. -/
structure SearchResult where
  chunk_id : Str
  doc_id : Str
  text : Str
  similarity : ℚ
  doc_title : Str
deriving DecidableEq

/-- Result dictionary of `search_documents`. -/
structure SearchResponse where
  success : Bool
  query : Str
  results_count : Nat
  total_searched : Nat
  results : List SearchResult
deriving DecidableEq

/-- ChromaDBRAGTool.search_documents: embed the query, query the collection
(the `where` filter is only applied for a truthy, i.e. non-empty, `doc_filter`),
and convert each distance to a similarity as `1 - distance`. -/
def search_documents (ctx : Ctx) (st : RAGState) (query : Str) (top_k : Nat)
    (doc_filter : Option Str) : SearchResponse :=
  let qe := ctx.embed query
  let w : Option (Str × PyVal) := match doc_filter with
    | none => none
    | some f => if f = [] then none else some ("doc_id".data, PyVal.s f)
  let hits := Collection.queryNN st.collection qe top_k w
  let formatted := hits.map (fun h =>
    { chunk_id := h.1.id,
      doc_id := h.1.metadata.getStr ("doc_id".data),
      text := h.1.text,
      similarity := 1 - h.2,
      doc_title := h.1.metadata.getStr ("title".data) : SearchResult })
  { success := true, query := query, results_count := formatted.length,
    total_searched := st.collection.length, results := formatted }

/-- Result dictionary of `query_document`. -/
structure QueryResult where
  success : Bool
  message : Option Str
  doc_id : Option Str
  doc_title : Option Str
  question : Option Str
  answer : Option Str
  sources : Option (List SearchResult)
deriving DecidableEq

/-- Prompt template of `query_document`. -/
def qdPrompt (title context question : Str) : Str :=
  "Based on the following document excerpts, answer the question.\n\nDocument: ".data
    ++ title ++ "\n\nContext:\n".data ++ context ++ "\n\nQuestion: ".data ++ question
    ++ "\n\nProvide a clear, accurate answer based only on the context provided. If the answer cannot be found in the context, say so.\n\nAnswer:".data

/-- ChromaDBRAGTool.query_document: validate the id against the registry, search the
top 3 chunks scoped to the document, and answer from the assembled context; a failure
of the external generation call (`gen` returning an error) is caught and folded into
the answer text together with a 500-character context excerpt. -/
def query_document (ctx : Ctx) (gen : Str → Except Str Str) (st : RAGState)
    (doc_id question : Str) : QueryResult :=
  match assocGet st.index doc_id with
  | none =>
    { success := false, message := some ("Document ".data ++ doc_id ++ " not found".data),
      doc_id := none, doc_title := none, question := none, answer := none, sources := none }
  | some info =>
    let sr := search_documents ctx st question 3 (some doc_id)
    if sr.results = [] then
      { success := false, message := some "No relevant content found in document".data,
        doc_id := none, doc_title := none, question := none, answer := none, sources := none }
    else
      let context := List.intercalate nl2 (sr.results.map (fun r => r.text))
      let answer := match gen (qdPrompt info.title context question) with
        | Except.ok t => t
        | Except.error e =>
          "Error generating answer: ".data ++ e ++ "\n\nRelevant context found:\n".data
            ++ context.take 500 ++ "...".data
      { success := true, message := none, doc_id := some doc_id,
        doc_title := some info.title, question := some question,
        answer := some answer, sources := some sr.results }

/-- Result dictionary of `delete_document`. -/
structure DeleteResult where
  success : Bool
  message : Option Str
  doc_id : Option Str
  title : Option Str
  chunks_deleted : Option Nat
deriving DecidableEq

/-- The metadata condition used by the cascade delete's `collection.get(where=...)`. -/
def docMatch (doc_id : Str) (e : Entry) : Bool :=
  e.metadata.get ("doc_id".data) = some (PyVal.s doc_id)

/-- ChromaDBRAGTool.delete_document: collect the ids of the chunks whose metadata
names this document, delete them from the collection, remove the saved body and
the registry entry. -/
def delete_document (st : RAGState) (doc_id : Str) : DeleteResult × RAGState :=
  match assocGet st.index doc_id with
  | none =>
    ({ success := false, message := some ("Document ".data ++ doc_id ++ " not found".data),
       doc_id := none, title := none, chunks_deleted := none }, st)
  | some info =>
    let chunk_ids := (st.collection.filter (docMatch doc_id)).map (fun e => e.id)
    let coll1 := if chunk_ids = [] then st.collection
                 else st.collection.filter (fun e => decide (e.id ∉ chunk_ids))
    ({ success := true, message := some ("Document '".data ++ info.title ++ "' deleted successfully".data),
       doc_id := some doc_id, title := some info.title,
       chunks_deleted := some chunk_ids.length },
     { index := assocErase st.index doc_id, docs := assocErase st.docs doc_id,
       collection := coll1 })

/-- One grouped-search document entry. -/
structure DocGroup where
  doc_id : Str
  title : Str
  max_similarity : ℚ
  chunk_count : Nat
  top_chunks : List SearchResult
deriving DecidableEq

/-- Result dictionary of `semantic_search_all`. -/
structure GroupedResponse where
  success : Bool
  query : Str
  documents : List DocGroup
  total_docs_found : Option Nat
deriving DecidableEq

/-- The in-place update of the matching group entry in `semantic_search_all`:
append the chunk, bump the count, and raise the running maximum similarity. -/
def updateGroup (r : SearchResult) (g : DocGroup) : DocGroup :=
  if g.doc_id = r.doc_id then
    { g with chunk_count := g.chunk_count + 1,
             top_chunks := g.top_chunks ++ [r],
             max_similarity := if g.max_similarity < r.similarity then r.similarity
                               else g.max_similarity }
  else g

/-- Loop body of the grouping in `semantic_search_all`: start a group for a new
`doc_id` or extend the existing group, tracking the running maximum similarity. -/
def addToGroups (gs : List DocGroup) (r : SearchResult) : List DocGroup :=
  if gs.any (fun g => g.doc_id = r.doc_id) then gs.map (updateGroup r)
  else
    gs ++ [{ doc_id := r.doc_id, title := r.doc_title, max_similarity := r.similarity,
             chunk_count := 1, top_chunks := [r] }]

/-- Ordering of groups by descending `max_similarity` (Python's stable
`sorted(..., reverse=True)` on that key). -/
def groupLe (a b : DocGroup) : Prop := b.max_similarity ≤ a.max_similarity

instance : DecidableRel groupLe :=
  fun a b => inferInstanceAs (Decidable (b.max_similarity ≤ a.max_similarity))

/-- ChromaDBRAGTool.semantic_search_all: oversample `2 * top_k` chunks across all
documents, group them by document id, rank groups by best chunk similarity,
truncate to `top_k`. -/
def semantic_search_all (ctx : Ctx) (st : RAGState) (query : Str) (top_k : Nat) :
    GroupedResponse :=
  let results := search_documents ctx st query (top_k * 2) none
  if results.results = [] then
    { success := true, query := query, documents := [], total_docs_found := none }
  else
    let groups := results.results.foldl addToGroups []
    let documents := (List.insertionSort groupLe groups).take top_k
    { success := true, query := query, documents := documents,
      total_docs_found := some documents.length }

namespace ReasoningEngine

/-- Loop state of `ReasoningEngine._chunk_document`. -/
structure RCState where
  chunks : List Str
  cur : Str
  curLen : Nat
deriving DecidableEq

/-- Loop body of `_chunk_document` for one line (the split is on single newlines). -/
def rcStep (chunk_size : Nat) (st : RCState) (para : Str) : RCState :=
  if st.curLen + para.length + 2 ≤ chunk_size then
    { st with cur := st.cur ++ para ++ nl2, curLen := st.curLen + para.length + 2 }
  else
    { chunks := if st.cur = [] then st.chunks else st.chunks ++ [pyStrip st.cur],
      cur := para ++ nl2, curLen := para.length + 2 }

/-- ReasoningEngine._chunk_document: accumulate newline-split lines into chunks of
at most `chunk_size` characters (tracked via a running length counter). -/
def _chunk_document (text : Str) (chunk_size : Nat := 2000) : List Str :=
  let fin := (splitNl text).foldl (rcStep chunk_size) ⟨[], [], 0⟩
  if fin.cur = [] then fin.chunks else fin.chunks ++ [pyStrip fin.cur]

/-- Python `s.lower()`. -/
def pyLower (s : Str) : Str := s.map Char.toLower

/-- Lexical overlap score of the qa path: the cardinality of the intersection of
the lowercased word set of the query with the lowercased word set of the chunk. -/
def wordOverlapScore (queryWords : Finset Str) (chunk : Str) : Nat :=
  (queryWords ∩ (pyWords (pyLower chunk)).toFinset).card

/-- The scored chunk triples `(i, overlap, chunk)` built by `_answer_document_question`. -/
def qaScoredChunks (document_text query : Str) : List (Nat × Nat × Str) :=
  let chunks := _chunk_document document_text 1500
  let query_words := (pyWords (pyLower query)).toFinset
  (enumFrom 0 chunks).map (fun ic => (ic.1, wordOverlapScore query_words ic.2, ic.2))

/-- Ordering used by `chunk_scores.sort(key=lambda x: x[1], reverse=True)`:
stable descending on the score component. -/
def qaScoreLe (a b : Nat × Nat × Str) : Prop := b.2.1 ≤ a.2.1

instance : DecidableRel qaScoreLe := fun a b => inferInstanceAs (Decidable (b.2.1 ≤ a.2.1))

/-- The stably score-sorted triples. -/
def qaSortedChunks (document_text query : Str) : List (Nat × Nat × Str) :=
  List.insertionSort qaScoreLe (qaScoredChunks document_text query)

/-- The top-3 most relevant chunks selected for the generation context. -/
def qaRelevantChunks (document_text query : Str) : List Str :=
  ((qaSortedChunks document_text query).take 3).map (fun x => x.2.2)

/-- Prompt template of `_answer_document_question`. -/
def qaPrompt (context query : Str) : Str :=
  "\nBased on the following document excerpts, answer the question accurately and concisely.\n\nDOCUMENT EXCERPTS:\n".data
    ++ context ++ "\n\nQUESTION: ".data ++ query
    ++ "\n\nProvide a clear answer based ONLY on the document content. If the information is not in the document, state that clearly. Cite specific parts of the document when possible.\n\nANSWER:\n".data

/-- Result dictionary of the analysis flows (absent fields are `none`). -/
structure AnalysisResult where
  success : Bool
  analysis : Option Str
  type : Option Str
  query : Option Str
  chunks_used : Option Nat
  key_elements : Option Str
  error : Option Str
deriving DecidableEq

/-- ReasoningEngine._answer_document_question: chunk the document, pick the top-3
chunks by lexical overlap with the query (stable descending sort on the score),
join them as the context and invoke the external generation capability. -/
def _answer_document_question (gen : Str → Except Str Str) (document_text query : Str) :
    AnalysisResult :=
  let relevant_chunks := qaRelevantChunks document_text query
  let context := List.intercalate ("\n\n---\n\n".data) relevant_chunks
  match gen (qaPrompt context query) with
  | Except.ok t =>
    { success := true, analysis := some t, type := some "qa".data, query := some query,
      chunks_used := some relevant_chunks.length, key_elements := none, error := none }
  | Except.error e =>
    { success := false, analysis := none, type := none, query := none,
      chunks_used := none, key_elements := none, error := some e }

/-- ReasoningEngine._extract_key_elements, modelled as one external generation call
over the first 2000 characters (the source additionally parses the response as JSON,
which lives entirely in the external capability's output). -/
def _extract_key_elements (gen : Str → Except Str Str) (document_text : Str) : Str :=
  match gen ("Extract key elements from this legal document:\n".data ++ document_text.take 2000) with
  | Except.ok t => t
  | Except.error e => "Extraction failed: ".data ++ e

/-- Condensed model of the three non-qa variants of `analyze_legal_document`
(comprehensive / summary / specific): each extracts key elements first and then
performs one prompt-build plus generation call; the long prompt texts are not
load-bearing for any claim and are abridged. -/
def analyzeRest (gen : Str → Except Str Str) (document_text analysis_type : Str) :
    AnalysisResult :=
  let key_elements := _extract_key_elements gen document_text
  match gen (analysis_type ++ " analysis:\n".data ++ key_elements ++ nl2 ++ document_text) with
  | Except.ok t =>
    { success := true, analysis := some t, type := some analysis_type, query := none,
      chunks_used := none, key_elements := some key_elements, error := none }
  | Except.error e =>
    { success := false, analysis := none, type := none, query := none,
      chunks_used := none, key_elements := none, error := some e }

/-- ReasoningEngine.analyze_legal_document: for `analysis_type = "qa"` with a truthy
(non-empty) query, dispatch to `_answer_document_question` before any key-element
extraction; otherwise run the requested full-document analysis variant. -/
def analyze_legal_document (gen : Str → Except Str Str) (document_text : Str)
    (analysis_type : Str) (query : Option Str) : AnalysisResult :=
  match query with
  | some q =>
    if analysis_type = "qa".data ∧ q ≠ [] then _answer_document_question gen document_text q
    else analyzeRest gen document_text analysis_type
  | none => analyzeRest gen document_text analysis_type

end ReasoningEngine

/-! Concrete fixtures used by witnesses and counterexamples. -/

/-- A concrete embedder/hasher pair: every text embeds to the vector `[2]`. -/
def ctxA : Ctx := { embed := fun _ => [2], genId := fun _ => "abcd".data }

/-- The empty initial state (fresh storage directory). -/
def st0 : RAGState := { index := [], docs := [], collection := [] }

/-- A state holding one document `d1`. -/
def stA : RAGState :=
  (add_document ctxA st0 ("hello".data) ("T".data) none (some ("d1".data)) ("t0".data)).2

/-- C1: a call to `add_document` whose doc id (explicit, or derived from the content
hash when omitted) is already present in the registry index returns a failure result
carrying that doc id and the duplicate message, and leaves the whole state (registry,
stored bodies, collection) unchanged. -/
theorem C1_duplicate_add_rejected (ctx : Ctx) (st : RAGState) (content title : Str)
    (metadata : Option PyDict) (docId : Option Str) (now : Str)
    (h : (assocGet st.index (docId.getD (ctx.genId content))).isSome = true) :
    (add_document ctx st content title metadata docId now).1.success = false ∧
    (add_document ctx st content title metadata docId now).1.doc_id
      = docId.getD (ctx.genId content) ∧
    (add_document ctx st content title metadata docId now).1.message
      = "Document already exists".data ∧
    (add_document ctx st content title metadata docId now).2 = st := by
  obtain ⟨info, hi⟩ := Option.isSome_iff_exists.mp h
  cases docId <;> simp_all [add_document, Option.getD]

/-- Witness for C1 at concrete inputs: re-adding `d1` to `stA` fails and preserves the state. -/
theorem C1_witness :
    ((assocGet stA.index ((some ("d1".data)).getD (ctxA.genId ("bye".data)))).isSome = true) ∧
    (add_document ctxA stA ("bye".data) ("T2".data) none (some ("d1".data)) ("t1".data)).1.success
      = false ∧
    (add_document ctxA stA ("bye".data) ("T2".data) none (some ("d1".data)) ("t1".data)).2 = stA :=
  ⟨by decide,
   (C1_duplicate_add_rejected ctxA stA ("bye".data) ("T2".data) none (some ("d1".data))
      ("t1".data) (by decide)).1,
   (C1_duplicate_add_rejected ctxA stA ("bye".data) ("T2".data) none (some ("d1".data))
      ("t1".data) (by decide)).2.2.2⟩

/-- A generation oracle that always succeeds, echoing the prompt. -/
def genEcho : Str → Except Str Str := fun p => Except.ok p

/-- A registry entry for a document with no chunks in the collection. -/
def infoB : DocInfo :=
  { doc_id := "d2".data, title := "T2".data, metadata := [], added_at := "t".data,
    chunk_count := 0, char_count := 0, word_count := 0 }

/-- A state whose registry holds `d2` while the collection holds no chunk for it. -/
def stB : RAGState := { index := [("d2".data, infoB)], docs := [], collection := [] }

/-- C6: `query_document` on a missing doc id returns a structured failure naming that
doc id; on a present doc id whose document-scoped search returns no chunk it returns a
distinct "no relevant content" failure; the two messages never coincide, so the two
cases are distinguishable, and neither path raises. -/
theorem C6_query_document_failure_paths (ctx : Ctx) (gen : Str → Except Str Str)
    (st : RAGState) (doc_id question : Str) :
    (assocGet st.index doc_id = none →
      (query_document ctx gen st doc_id question).success = false ∧
      (query_document ctx gen st doc_id question).message
        = some ("Document ".data ++ doc_id ++ " not found".data)) ∧
    (∀ info, assocGet st.index doc_id = some info →
      (search_documents ctx st question 3 (some doc_id)).results = [] →
      (query_document ctx gen st doc_id question).success = false ∧
      (query_document ctx gen st doc_id question).message
        = some ("No relevant content found in document".data)) ∧
    (∀ d : Str,
      ("Document ".data ++ d ++ " not found".data)
        ≠ "No relevant content found in document".data) := by
  refine ⟨?_, ?_, ?_⟩
  · intro h
    simp [query_document, h]
  · intro info h hr
    simp [query_document, h, hr]
  · intro d h
    have h2 := congrArg List.head? h
    simp [List.head?_append] at h2

/-- Witness for C6 at concrete inputs: a missing id on `stA`, and a present id with
zero document-scoped hits on `stB`. -/
theorem C6_witness :
    (assocGet stA.index ("zz".data) = none ∧
      (query_document ctxA genEcho stA ("zz".data) ("q".data)).success = false) ∧
    (assocGet stB.index ("d2".data) = some infoB ∧
      (search_documents ctxA stB ("q".data) 3 (some ("d2".data))).results = [] ∧
      (query_document ctxA genEcho stB ("d2".data) ("q".data)).message
        = some ("No relevant content found in document".data)) :=
  ⟨⟨by decide,
    ((C6_query_document_failure_paths ctxA genEcho stA ("zz".data) ("q".data)).1
      (by decide)).1⟩,
   ⟨by decide, by decide,
    ((C6_query_document_failure_paths ctxA genEcho stB ("d2".data) ("q".data)).2.1 infoB
      (by decide) (by decide)).2⟩⟩

/-! Whitespace lemmas for the degenerate-input behaviour of the two chunkers. -/

theorem pyStrip_eq_nil_of_allWs {s : Str} (h : ∀ c ∈ s, pyIsSpace c) : pyStrip s = [] := by
  have h1 : s.dropWhile pyIsSpace = [] := List.dropWhile_eq_nil_iff.mpr h
  simp [pyStrip, h1]

theorem wordsAux_nil_of_allWs {s : Str} (h : ∀ c ∈ s, pyIsSpace c) : wordsAux s [] = [] := by
  induction s with
  | nil => simp [wordsAux]
  | cons c rest ih =>
    have hc : pyIsSpace c := h c (by simp)
    simp [wordsAux, hc]
    exact ih (fun x hx => h x (by simp [hx]))

theorem pyWords_nil_of_allWs {s : Str} (h : ∀ c ∈ s, pyIsSpace c) : pyWords s = [] :=
  wordsAux_nil_of_allWs h

theorem splitPara_subset : ∀ (s : Str), ∀ p ∈ splitPara s, ∀ c ∈ p, c ∈ s := by
  intro s
  induction s using splitPara.induct with
  | case1 => intro p hp c hc; simp [splitPara] at hp; simp [hp] at hc
  | case2 c0 =>
    intro p hp c hc; simp [splitPara] at hp; subst hp; simpa using hc
  | case3 c1 c2 rest hif ih =>
    intro p hp c hc
    rw [splitPara, if_pos hif] at hp
    rcases List.mem_cons.mp hp with hp | hp
    · simp [hp] at hc
    · have := ih p hp c hc
      simp [this]
  | case4 c1 c2 rest hif heq ih =>
    intro p hp c hc
    rw [splitPara, if_neg hif, heq] at hp
    simp at hp
    subst hp
    simp at hc
    simp [hc]
  | case5 c1 c2 rest hif q qs heq ih =>
    intro p hp c hc
    rw [splitPara, if_neg hif, heq] at hp
    rcases List.mem_cons.mp hp with hp | hp
    · subst hp
      rcases List.mem_cons.mp hc with hc | hc
      · simp [hc]
      · have : c ∈ c2 :: rest := ih q (by rw [heq]; exact List.mem_cons_self _ _) c hc
        simp [List.mem_cons] at this ⊢
        tauto
    · have hq : p ∈ splitPara (c2 :: rest) := by rw [heq]; exact List.mem_cons_of_mem _ hp
      have : c ∈ c2 :: rest := ih p hq c hc
      simp [List.mem_cons] at this ⊢
      tauto

/-- All characters of a string are whitespace (covers the empty string as well). -/
def allWs (s : Str) : Prop := ∀ c ∈ s, pyIsSpace c

instance (s : Str) : Decidable (allWs s) := List.decidableBAll _ s

theorem allWs_append {a b : Str} (ha : allWs a) (hb : allWs b) : allWs (a ++ b) := by
  intro c hc
  rcases List.mem_append.mp hc with h | h
  · exact ha c h
  · exact hb c h

theorem allWs_nl2 : allWs nl2 := by
  intro c hc
  simp [nl2] at hc
  simp [hc, pyIsSpace]

theorem allWs_cons {c : Char} {s : Str} (hc : pyIsSpace c) (hs : allWs s) : allWs (c :: s) := by
  intro x hx
  rcases List.mem_cons.mp hx with h | h
  · simp [h, hc]
  · exact hs x h

theorem ovText_nil_of_allWs {cur : Str} (ov : Nat) (h : allWs cur) : ovText ov cur = [] := by
  simp [ovText, pyWords_nil_of_allWs h]

theorem chunkStep_ws_inv (cs ov : Nat) {st : CState} {para : Str}
    (hpara : allWs para) (hcur : allWs st.cur) (hch : ∀ ch ∈ st.chunks, ch.text = []) :
    allWs (chunkStep cs ov st para).cur ∧
    (∀ ch ∈ (chunkStep cs ov st para).chunks, ch.text = []) := by
  unfold chunkStep
  split
  · exact ⟨allWs_append (allWs_append hcur hpara) allWs_nl2, hch⟩
  · split
    · constructor
      · rw [ovText_nil_of_allWs ov hcur]
        simp only [List.nil_append]
        exact allWs_cons (by decide) (allWs_append hpara allWs_nl2)
      · intro ch hch2
        rcases List.mem_append.mp hch2 with h | h
        · exact hch ch h
        · simp at h
          simp [h, pyStrip_eq_nil_of_allWs hcur]
    · exact ⟨allWs_append hpara allWs_nl2, hch⟩

theorem foldl_chunkStep_ws_inv (cs ov : Nat) :
    ∀ (ps : List Str) (st : CState), (∀ p ∈ ps, allWs p) →
    allWs st.cur → (∀ ch ∈ st.chunks, ch.text = []) →
    allWs (ps.foldl (chunkStep cs ov) st).cur ∧
    (∀ ch ∈ (ps.foldl (chunkStep cs ov) st).chunks, ch.text = []) := by
  intro ps
  induction ps with
  | nil => intro st _ h1 h2; exact ⟨h1, h2⟩
  | cons p ps ih =>
    intro st hps h1 h2
    have hp : allWs p := hps p (by simp)
    have step := chunkStep_ws_inv cs ov hp h1 h2
    simpa using ih (chunkStep cs ov st p) (fun q hq => hps q (by simp [hq])) step.1 step.2

/-- C5 amended: for empty or whitespace-only input (and any chunk sizes/overlaps),
the fixed-window chunker `DocumentProcessor.chunk_text` returns the empty sequence and
never errors, while the paragraph-aware `_chunk_text` never errors but returns a
sequence of chunk records whose texts are all empty — not the empty sequence itself. -/
theorem C5_degenerate_input (text : Str) (cs1 ov1 cs2 ov2 : Nat) (h : allWs text) :
    DocumentProcessor.chunk_text text cs1 ov1 = [] ∧
    (∀ ch ∈ _chunk_text text cs2 ov2, ch.text = []) := by
  constructor
  · simp [DocumentProcessor.chunk_text, pyStrip_eq_nil_of_allWs h]
  · intro ch hch
    have hps : ∀ p ∈ splitPara text, allWs p :=
      fun p hp c hc => h c (splitPara_subset text p hp c hc)
    have inv := foldl_chunkStep_ws_inv cs2 ov2 (splitPara text) ⟨[], [], 0⟩
      hps (by intro c hc; simp at hc) (by intro ch hc; simp at hc)
    unfold _chunk_text chunkFinish at hch
    split at hch
    · rcases List.mem_append.mp hch with h2 | h2
      · exact inv.2 ch h2
      · simp at h2
        simp [h2, pyStrip_eq_nil_of_allWs inv.1]
    · exact inv.2 ch hch

/-- Counterexample for C5 as stated: on the empty string the paragraph-aware chunker
returns one chunk (with empty text and recorded length 2), not an empty sequence. -/
theorem C5_counterexample :
    _chunk_text [] 500 100 = [⟨0, [], 2⟩] ∧ _chunk_text [] 500 100 ≠ [] := by
  decide

/-- Witness for C5's amended theorem at a concrete whitespace-only input. -/
theorem C5_witness :
    allWs (" \n".data) ∧
    DocumentProcessor.chunk_text (" \n".data) 1000 200 = [] ∧
    (∀ ch ∈ _chunk_text (" \n".data) 500 100, ch.text = []) :=
  ⟨by decide,
   (C5_degenerate_input (" \n".data) 1000 200 500 100 (by decide)).1,
   (C5_degenerate_input (" \n".data) 1000 200 500 100 (by decide)).2⟩

/-! Metadata-merge lemmas for the chunk records written by `add_document`. -/

theorem PyDict.foldl_get_init (b : PyDict) (k : Str) (init : Option PyVal) :
    b.foldl (fun acc kv => if kv.1 = k then some kv.2 else acc) init
      = match PyDict.get b k with
        | some v => some v
        | none => init := by
  induction b generalizing init with
  | nil => simp [PyDict.get]
  | cons kv b ih =>
    show b.foldl _ (if kv.1 = k then some kv.2 else init) = _
    rw [ih]
    have hb : PyDict.get (kv :: b) k
        = b.foldl (fun acc kv => if kv.1 = k then some kv.2 else acc)
            (if kv.1 = k then some kv.2 else none) := rfl
    rw [hb, ih]
    cases PyDict.get b k with
    | some v => rfl
    | none => by_cases hk : kv.1 = k <;> simp [hk]

theorem PyDict.get_append (a b : PyDict) (k : Str) :
    PyDict.get (a ++ b) k
      = match PyDict.get b k with
        | some v => some v
        | none => PyDict.get a k := by
  show (a ++ b).foldl _ none = _
  rw [List.foldl_append]
  exact PyDict.foldl_get_init b k (PyDict.get a k)

/-- C10: on a successful `add_document`, each new chunk record's metadata is the
provenance dict `{doc_id, title, chunk_index, length}` dict-merged with the caller
metadata, a caller entry overriding a same-named provenance key; in particular a
caller-supplied `doc_id` entry replaces the document's actual id in the stored chunk
metadata, and that stored value is exactly what the metadata filter of doc-scoped
search and of the cascade delete match against. -/
theorem C10_chunk_metadata_merge (ctx : Ctx) (st : RAGState) (content title : Str)
    (metadata : Option PyDict) (docId : Option Str) (now : Str)
    (h : assocGet st.index (docId.getD (ctx.genId content)) = none) :
    ((add_document ctx st content title metadata docId now).2.collection
      = st.collection ++ (_chunk_text content 500 100).map
          (chunkEntry ctx (docId.getD (ctx.genId content)) title metadata)) ∧
    (∀ c : Chunk, ∀ k : Str,
      (chunkEntry ctx (docId.getD (ctx.genId content)) title metadata c).metadata.get k
        = match (metadata.getD []).get k with
          | some v => some v
          | none => (provMeta (docId.getD (ctx.genId content)) title c).get k) ∧
    (∀ c : Chunk, ∀ v : PyVal, (metadata.getD []).get ("doc_id".data) = some v →
      (chunkEntry ctx (docId.getD (ctx.genId content)) title metadata c).metadata.get
        ("doc_id".data) = some v) ∧
    (∀ coll : Collection, ∀ qe : List ℚ, ∀ n : Nat, ∀ f : Str,
      ∀ hit ∈ Collection.queryNN coll qe n (some ("doc_id".data, PyVal.s f)),
        hit.1.metadata.get ("doc_id".data) = some (PyVal.s f)) ∧
    (∀ stq : RAGState, ∀ d : Str, ∀ info, assocGet stq.index d = some info →
      (delete_document stq d).1.chunks_deleted
        = some ((stq.collection.filter (docMatch d)).length)) := by
  refine ⟨?_, ?_, ?_, ?_, ?_⟩
  · cases docId <;> simp [add_document, Option.getD] at h ⊢ <;> simp [h]
  · intro c k
    exact PyDict.get_append _ _ k
  · intro c v hv
    have := PyDict.get_append
      (provMeta (docId.getD (ctx.genId content)) title c) (metadata.getD []) ("doc_id".data)
    rw [hv] at this
    exact this
  · intro coll qe n f hit hhit
    unfold Collection.queryNN at hhit
    have h1 : hit ∈ List.insertionSort distLe
        ((coll.filter (fun e => e.metadata.get ("doc_id".data) = some (PyVal.s f))).map
          (fun e => (e, sqDist qe e.embedding))) := List.mem_of_mem_take hhit
    have h2 := (List.perm_insertionSort distLe _).mem_iff.mp h1
    obtain ⟨e, he, rfl⟩ := List.mem_map.mp h2
    have := List.of_mem_filter he
    simpa using of_decide_eq_true this
  · intro stq d info hinfo
    simp [delete_document, hinfo]

/-- Caller metadata that shadows the provenance `doc_id` key. -/
def metaFake : PyDict := [("doc_id".data, PyVal.s ("fake".data))]

/-- Witness for C10 at concrete inputs: adding a fresh document whose caller metadata
carries a conflicting `doc_id` entry stores the caller's value in the chunk metadata. -/
theorem C10_witness :
    (assocGet st0.index ((some ("real".data)).getD (ctxA.genId ("hello".data))) = none) ∧
    ((add_document ctxA st0 ("hello".data) ("T".data) (some metaFake)
        (some ("real".data)) ("t".data)).2.collection
      = st0.collection ++ (_chunk_text ("hello".data) 500 100).map
          (chunkEntry ctxA ((some ("real".data)).getD (ctxA.genId ("hello".data)))
            ("T".data) (some metaFake))) ∧
    ((chunkEntry ctxA ((some ("real".data)).getD (ctxA.genId ("hello".data)))
        ("T".data) (some metaFake) ⟨0, ("hello".data), 7⟩).metadata.get ("doc_id".data)
      = some (PyVal.s ("fake".data))) :=
  ⟨by decide,
   (C10_chunk_metadata_merge ctxA st0 ("hello".data) ("T".data) (some metaFake)
      (some ("real".data)) ("t".data) (by decide)).1,
   (C10_chunk_metadata_merge ctxA st0 ("hello".data) ("T".data) (some metaFake)
      (some ("real".data)) ("t".data) (by decide)).2.2.1 ⟨0, ("hello".data), 7⟩
      (PyVal.s ("fake".data)) (by decide)⟩

theorem sqDist_nonneg (a b : List ℚ) : 0 ≤ sqDist a b := by
  apply List.sum_nonneg
  intro x hx
  obtain ⟨p, _, rfl⟩ := List.mem_map.mp hx
  exact mul_self_nonneg _

/-- C3 amended: every search result's similarity equals exactly `1 -` the distance the
vector index reports for that chunk, and since the (squared L2) distance is
non-negative the similarity is at most 1 — but it is not bounded below by 0. -/
theorem C3_similarity_amended (ctx : Ctx) (st : RAGState) (query : Str) (top_k : Nat)
    (doc_filter : Option Str) :
    ∀ r ∈ (search_documents ctx st query top_k doc_filter).results,
      (∃ hit ∈ Collection.queryNN st.collection (ctx.embed query) top_k
          (match doc_filter with
           | none => none
           | some f => if f = [] then none else some ("doc_id".data, PyVal.s f)),
        r.chunk_id = hit.1.id ∧ r.text = hit.1.text ∧
        r.similarity = 1 - hit.2 ∧ 0 ≤ hit.2) ∧
      r.similarity ≤ 1 := by
  intro r hr
  simp only [search_documents] at hr
  obtain ⟨hit, hhit, rfl⟩ := List.mem_map.mp hr
  have hd : 0 ≤ hit.2 := by
    have h1 : hit ∈ List.insertionSort distLe _ := List.mem_of_mem_take hhit
    have h2 := (List.perm_insertionSort distLe _).mem_iff.mp h1
    obtain ⟨e, _, rfl⟩ := List.mem_map.mp h2
    exact sqDist_nonneg _ _
  refine ⟨⟨hit, hhit, rfl, rfl, rfl, hd⟩, ?_⟩
  simpa using hd

/-- An embedder whose chunk vector is `[0]` and whose query vector is `[2]`, so the
squared L2 distance between a stored chunk and a query is 4. -/
def ctxB : Ctx :=
  { embed := fun s => if s = "hello".data then [0] else [2],
    genId := fun _ => "abcd".data }

/-- A state holding the single-chunk document `d1` embedded by `ctxB`. -/
def stC3 : RAGState :=
  (add_document ctxB st0 ("hello".data) ("T".data) none (some ("d1".data)) ("t0".data)).2


/-- Counterexample for C3 as stated: a search over `stC3` yields a result whose
similarity is `1 - 4 = -3`, which does not lie in `[0, 1]`. -/
theorem C3_counterexample :
    ((search_documents ctxB stC3 ("q".data) 5 none).results.map (fun r => r.similarity)
      = [-3]) ∧ ((-3 : ℚ) < 0) := by
  constructor
  · have h : (search_documents ctxB stC3 ("q".data) 5 none).results.map (fun r => r.similarity)
        = [1 - sqDist [2] [0]] := rfl
    rw [h]
    norm_num [sqDist]
  · norm_num

/-- Witness for C3's amended theorem at concrete inputs. -/
theorem C3_witness :
    ((search_documents ctxB stC3 ("q".data) 5 none).results.length = 1) ∧
    (∀ r ∈ (search_documents ctxB stC3 ("q".data) 5 none).results, r.similarity ≤ 1) :=
  ⟨by decide,
   fun r hr => (C3_similarity_amended ctxB stC3 ("q".data) 5 none r hr).2⟩

/-- A generation oracle that always fails. -/
def genFail : Str → Except Str Str := fun _ => Except.error ("boom".data)

/-- C2 amended: when the document exists, retrieval returns at least one chunk and the
external generation capability fails, `query_document` still carries the retrieved
source chunks and folds the error plus a 500-character context excerpt into the answer
text — but it reports `success = true`, not `success = false`. -/
theorem C2_generation_failure_keeps_sources (ctx : Ctx) (gen : Str → Except Str Str)
    (st : RAGState) (doc_id question : Str) (info : DocInfo) (e : Str)
    (h1 : assocGet st.index doc_id = some info)
    (h2 : (search_documents ctx st question 3 (some doc_id)).results ≠ [])
    (h3 : ∀ p : Str, gen p = Except.error e) :
    (query_document ctx gen st doc_id question).success = true ∧
    (query_document ctx gen st doc_id question).sources
      = some (search_documents ctx st question 3 (some doc_id)).results ∧
    (query_document ctx gen st doc_id question).answer
      = some ("Error generating answer: ".data ++ e ++ "\n\nRelevant context found:\n".data
          ++ (List.intercalate nl2
              ((search_documents ctx st question 3 (some doc_id)).results.map
                (fun r => r.text))).take 500
          ++ "...".data) := by
  simp [query_document, h1, h2, h3]

/-- Counterexample for C2 as stated: on `stA` with an always-failing generator,
`query_document` returns `success = true` (with sources still attached), not
`success = false`. -/
theorem C2_counterexample :
    ((query_document ctxA genFail stA ("d1".data) ("q".data)).success = true) ∧
    ((query_document ctxA genFail stA ("d1".data) ("q".data)).sources ≠ none) := by
  decide

/-- The registry entry recorded for `d1` in `stA`. -/
def infoA : DocInfo :=
  { doc_id := "d1".data, title := "T".data, metadata := [], added_at := "t0".data,
    chunk_count := 1, char_count := 5, word_count := 1 }

/-- Witness for C2's amended theorem at concrete inputs. -/
theorem C2_witness :
    (assocGet stA.index ("d1".data) = some infoA) ∧
    ((search_documents ctxA stA ("q".data) 3 (some ("d1".data))).results ≠ []) ∧
    ((query_document ctxA genFail stA ("d1".data) ("q".data)).success = true) ∧
    ((query_document ctxA genFail stA ("d1".data) ("q".data)).sources
      = some (search_documents ctxA stA ("q".data) 3 (some ("d1".data))).results) :=
  ⟨by decide, by decide,
   (C2_generation_failure_keeps_sources ctxA genFail stA ("d1".data) ("q".data) infoA
      ("boom".data) (by decide) (by decide) (fun _ => rfl)).1,
   (C2_generation_failure_keeps_sources ctxA genFail stA ("d1".data) ("q".data) infoA
      ("boom".data) (by decide) (by decide) (fun _ => rfl)).2.1⟩

/-! Association-list and filter lemmas for the delete cascade. -/

theorem assocGet_eq_none_of_not_mem {α : Type} {l : List (Str × α)} {k : Str}
    (h : k ∉ l.map Prod.fst) : assocGet l k = none := by
  induction l with
  | nil => rfl
  | cons kv l ih =>
    simp only [List.map_cons, List.mem_cons] at h
    push_neg at h
    rw [assocGet, if_neg (fun he => h.1 he.symm)]
    exact ih h.2

theorem assocErase_get_self {α : Type} {l : List (Str × α)} {k : Str}
    (h : (l.map Prod.fst).Nodup) : assocGet (assocErase l k) k = none := by
  induction l with
  | nil => rfl
  | cons kv l ih =>
    simp only [List.map_cons, List.nodup_cons] at h
    rw [assocErase]
    by_cases hk : kv.1 = k
    · rw [if_pos hk]
      exact assocGet_eq_none_of_not_mem (by rw [← hk]; exact h.1)
    · rw [if_neg hk, assocGet, if_neg hk]
      exact ih h.2

theorem filter_not_length {α : Type} (p : α → Bool) (l : List α) :
    (l.filter p).length + (l.filter (fun a => !(p a))).length = l.length := by
  induction l with
  | nil => rfl
  | cons a l ih =>
    by_cases hp : p a <;> simp [hp, ← ih] <;> omega

/-- The collection left by `delete_document` on a present doc id: with globally unique
chunk ids, deleting the fetched ids removes exactly the entries whose metadata names
the document. -/
theorem delete_collection_eq {st : RAGState} {doc_id : Str}
    (h3 : (st.collection.map (fun e => e.id)).Nodup) {info : DocInfo}
    (h1 : assocGet st.index doc_id = some info) :
    (delete_document st doc_id).2.collection
      = st.collection.filter (fun e => !(docMatch doc_id e)) := by
  have hiff : ∀ e ∈ st.collection,
      (e.id ∈ (st.collection.filter (docMatch doc_id)).map (fun e => e.id))
        ↔ docMatch doc_id e = true := by
    intro e he
    constructor
    · intro hid
      obtain ⟨e2, he2, heq⟩ := List.mem_map.mp hid
      have he2c := List.mem_of_mem_filter he2
      have := List.inj_on_of_nodup_map h3 he2c he heq
      rw [← this]
      exact List.of_mem_filter he2
    · intro hm
      exact List.mem_map.mpr ⟨e, List.mem_filter.mpr ⟨he, hm⟩, rfl⟩
  simp only [delete_document, h1]
  by_cases hnil : (st.collection.filter (docMatch doc_id)).map (fun e => e.id) = []
  · have hmap : st.collection.filter (docMatch doc_id) = [] := by
      cases hfe : st.collection.filter (docMatch doc_id) with
      | nil => rfl
      | cons a b => rw [hfe] at hnil; simp at hnil
    have hnom : ∀ e ∈ st.collection, ¬ docMatch doc_id e = true := by
      intro e he hm
      have : e ∈ st.collection.filter (docMatch doc_id) := List.mem_filter.mpr ⟨he, hm⟩
      rw [hmap] at this
      simp at this
    rw [if_pos hnil]
    symm
    rw [List.filter_eq_self]
    intro e he
    simp [hnom e he]
  · rw [if_neg hnil]
    apply List.filter_congr
    intro e he
    by_cases hd : docMatch doc_id e = true
    · have hmem := (hiff e he).mpr hd
      simp [hd, hmem]
    · have hmem : e.id ∉ (st.collection.filter (docMatch doc_id)).map (fun e => e.id) :=
        fun hm => hd ((hiff e he).mp hm)
      rw [Bool.not_eq_true] at hd
      simp [hd, hmem]

theorem docMatch_def (d : Str) (e : Entry) :
    docMatch d e = decide (e.metadata.get ("doc_id".data) = some (PyVal.s d)) := rfl

/-- C7 amended: `delete_document` on a doc id that is present in the registry — with
the (dict / ChromaDB) well-formedness of the state: unique chunk ids, unique registry
and file keys — and non-empty, succeeds, reports `chunks_deleted` equal to the number
of chunks the index held for that doc id, removes the registry entry and stored body,
shrinks the collection by exactly that number, and afterwards any search filtered by
that doc id returns zero results. (For the empty-string doc id the last conjunct fails
because a falsy `doc_filter` disables the search filter.) -/
theorem C7_delete_cascade (st : RAGState) (doc_id : Str) (info : DocInfo)
    (h1 : assocGet st.index doc_id = some info) (h2 : doc_id ≠ [])
    (h3 : (st.collection.map (fun e => e.id)).Nodup)
    (h4 : (st.index.map Prod.fst).Nodup) (h5 : (st.docs.map Prod.fst).Nodup) :
    ((delete_document st doc_id).1.success = true) ∧
    ((delete_document st doc_id).1.chunks_deleted
      = some ((st.collection.filter (docMatch doc_id)).length)) ∧
    (assocGet (delete_document st doc_id).2.index doc_id = none) ∧
    (assocGet (delete_document st doc_id).2.docs doc_id = none) ∧
    ((delete_document st doc_id).2.collection.length
        + (st.collection.filter (docMatch doc_id)).length = st.collection.length) ∧
    (∀ ctx : Ctx, ∀ q : Str, ∀ n : Nat,
      (search_documents ctx (delete_document st doc_id).2 q n (some doc_id)).results = []) := by
  have hc := delete_collection_eq h3 h1
  refine ⟨?_, ?_, ?_, ?_, ?_, ?_⟩
  · simp [delete_document, h1]
  · simp [delete_document, h1]
  · simp only [delete_document, h1]
    exact assocErase_get_self h4
  · simp only [delete_document, h1]
    exact assocErase_get_self h5
  · rw [hc, Nat.add_comm]
    exact filter_not_length (docMatch doc_id) st.collection
  · intro ctx q n
    have hm : (delete_document st doc_id).2.collection.filter
        (fun e => decide (e.metadata.get ("doc_id".data) = some (PyVal.s doc_id))) = [] := by
      rw [hc]
      rw [List.filter_filter]
      apply List.filter_eq_nil_iff.mpr
      intro e he
      rw [← docMatch_def]
      cases hd : docMatch doc_id e <;> simp [hd]
    simp [search_documents, Collection.queryNN, h2, hm]

/-- A state holding two documents, one of them under the empty-string doc id. -/
def stC7 : RAGState :=
  (add_document ctxA
    (add_document ctxA st0 ("aa".data) ("TA".data) none (some []) ("t".data)).2
    ("bb".data) ("TB".data) none (some ("x".data)) ("t".data)).2

/-- Counterexample for C7 as stated: the empty-string doc id is present in `stC7`, yet
after `delete_document ""` a search with `doc_filter = ""` still returns results
(the falsy filter is dropped, exposing the other document's chunks). -/
theorem C7_counterexample :
    ((assocGet stC7.index []).isSome = true) ∧
    ((search_documents ctxA (delete_document stC7 []).2 ("q".data) 5 (some [])).results
      ≠ []) := by
  decide

/-- Witness for C7's amended theorem at concrete inputs. -/
theorem C7_witness :
    (assocGet stA.index ("d1".data) = some infoA) ∧
    ((delete_document stA ("d1".data)).1.success = true) ∧
    ((delete_document stA ("d1".data)).1.chunks_deleted
      = some ((stA.collection.filter (docMatch ("d1".data))).length)) ∧
    (assocGet (delete_document stA ("d1".data)).2.index ("d1".data) = none) ∧
    ((search_documents ctxA (delete_document stA ("d1".data)).2 ("q".data) 5
        (some ("d1".data))).results = []) :=
  ⟨by decide,
   (C7_delete_cascade stA ("d1".data) infoA (by decide) (by decide) (by decide)
      (by decide) (by decide)).1,
   (C7_delete_cascade stA ("d1".data) infoA (by decide) (by decide) (by decide)
      (by decide) (by decide)).2.1,
   (C7_delete_cascade stA ("d1".data) infoA (by decide) (by decide) (by decide)
      (by decide) (by decide)).2.2.1,
   (C7_delete_cascade stA ("d1".data) infoA (by decide) (by decide) (by decide)
      (by decide) (by decide)).2.2.2.2.2 ctxA ("q".data) 5⟩

/-! Grouping lemmas for `semantic_search_all`. -/

theorem updateGroup_doc_id (r : SearchResult) (g : DocGroup) :
    (updateGroup r g).doc_id = g.doc_id := by
  unfold updateGroup
  split <;> rfl

theorem updateGroup_of_ne {r : SearchResult} {g : DocGroup} (h : g.doc_id ≠ r.doc_id) :
    updateGroup r g = g := by
  unfold updateGroup
  rw [if_neg h]

theorem updateGroup_of_eq {r : SearchResult} {g : DocGroup} (h : g.doc_id = r.doc_id) :
    updateGroup r g
      = { g with chunk_count := g.chunk_count + 1,
                 top_chunks := g.top_chunks ++ [r],
                 max_similarity := if g.max_similarity < r.similarity then r.similarity
                                   else g.max_similarity } := by
  unfold updateGroup
  rw [if_pos h]

/-- Invariant of the grouping fold of `semantic_search_all` over the processed prefix. -/
def GroupsInv (seen : List SearchResult) (gs : List DocGroup) : Prop :=
  (gs.Pairwise (fun a b => a.doc_id ≠ b.doc_id)) ∧
  (∀ g ∈ gs, g.top_chunks = seen.filter (fun x => decide (x.doc_id = g.doc_id)) ∧
    g.max_similarity ∈ g.top_chunks.map (fun x => x.similarity) ∧
    (∀ x ∈ g.top_chunks, x.similarity ≤ g.max_similarity)) ∧
  (∀ x ∈ seen, ∃ g ∈ gs, g.doc_id = x.doc_id)

theorem addToGroups_inv {seen : List SearchResult} {gs : List DocGroup} {r : SearchResult}
    (h : GroupsInv seen gs) : GroupsInv (seen ++ [r]) (addToGroups gs r) := by
  obtain ⟨hpw, hg, hcov⟩ := h
  unfold addToGroups
  by_cases hex : gs.any (fun g => g.doc_id = r.doc_id)
  · rw [if_pos hex]
    refine ⟨?_, ?_, ?_⟩
    · rw [List.pairwise_map]
      refine hpw.imp ?_
      intro a b hab
      rw [updateGroup_doc_id, updateGroup_doc_id]
      exact hab
    · intro g2 hg2
      obtain ⟨g, hgmem, rfl⟩ := List.mem_map.mp hg2
      obtain ⟨hch, hmx, hbd⟩ := hg g hgmem
      by_cases hid : g.doc_id = r.doc_id
      · rw [updateGroup_of_eq hid]
        refine ⟨?_, ?_, ?_⟩
        · simp only [List.filter_append, hch, hid]
          simp
        · simp only [List.map_append]
          by_cases hlt : g.max_similarity < r.similarity
          · simp [hlt]
          · simp only [if_neg hlt]
            exact List.mem_append_left _ hmx
        · intro x hx
          rcases List.mem_append.mp hx with hx | hx
          · have hb := hbd x hx
            by_cases hlt : g.max_similarity < r.similarity
            · simp only [if_pos hlt]
              exact le_trans hb (le_of_lt hlt)
            · simpa [if_neg hlt] using hb
          · simp only [List.mem_singleton] at hx
            rw [hx]
            by_cases hlt : g.max_similarity < r.similarity
            · simp [hlt]
            · simpa [if_neg hlt] using le_of_not_lt hlt
      · rw [updateGroup_of_ne hid]
        refine ⟨?_, hmx, hbd⟩
        simp only [List.filter_append, hch]
        have hne : (decide (r.doc_id = g.doc_id)) = false :=
          decide_eq_false (fun he => hid he.symm)
        simp [hne]
    · intro x hx
      rcases List.mem_append.mp hx with hx | hx
      · obtain ⟨g, hgmem, hgid⟩ := hcov x hx
        exact ⟨updateGroup r g, List.mem_map.mpr ⟨g, hgmem, rfl⟩,
          by rw [updateGroup_doc_id]; exact hgid⟩
      · simp only [List.mem_singleton] at hx
        subst hx
        obtain ⟨g, hgmem, hgid⟩ := List.any_eq_true.mp hex
        have hgid2 : g.doc_id = x.doc_id := of_decide_eq_true hgid
        exact ⟨updateGroup x g, List.mem_map.mpr ⟨g, hgmem, rfl⟩,
          by rw [updateGroup_doc_id]; exact hgid2⟩
  · rw [if_neg hex]
    have hnone : ∀ g ∈ gs, g.doc_id ≠ r.doc_id := by
      intro g hgmem he
      exact hex (List.any_eq_true.mpr ⟨g, hgmem, decide_eq_true he⟩)
    refine ⟨?_, ?_, ?_⟩
    · rw [List.pairwise_append]
      refine ⟨hpw, List.pairwise_singleton _ _, ?_⟩
      intro a ha b hb
      simp only [List.mem_singleton] at hb
      subst hb
      exact hnone a ha
    · intro g2 hg2
      rcases List.mem_append.mp hg2 with hg2 | hg2
      · obtain ⟨hch, hmx, hbd⟩ := hg g2 hg2
        refine ⟨?_, hmx, hbd⟩
        simp only [List.filter_append, hch]
        have hne : (decide (r.doc_id = g2.doc_id)) = false :=
          decide_eq_false (fun he => hnone g2 hg2 he.symm)
        simp [hne]
      · simp only [List.mem_singleton] at hg2
        subst hg2
        refine ⟨?_, by simp, ?_⟩
        · simp only [List.filter_append]
          have hseen : seen.filter (fun x => decide (x.doc_id = r.doc_id)) = [] := by
            apply List.filter_eq_nil_iff.mpr
            intro x hx hdx
            obtain ⟨g, hgmem, hgid⟩ := hcov x hx
            have : x.doc_id = r.doc_id := of_decide_eq_true hdx
            exact hnone g hgmem (by rw [hgid, this])
          simp [hseen]
        · intro x hx
          simp only [List.mem_singleton] at hx
          subst hx
          exact le_refl _
    · intro x hx
      rcases List.mem_append.mp hx with hx | hx
      · obtain ⟨g, hgmem, hgid⟩ := hcov x hx
        exact ⟨g, List.mem_append_left _ hgmem, hgid⟩
      · simp only [List.mem_singleton] at hx
        refine ⟨{ doc_id := r.doc_id, title := r.doc_title, max_similarity := r.similarity,
                  chunk_count := 1, top_chunks := [r] },
                List.mem_append_right _ (by simp), ?_⟩
        rw [hx]

theorem foldl_addToGroups_inv :
    ∀ (rs seen : List SearchResult) (gs : List DocGroup), GroupsInv seen gs →
      GroupsInv (seen ++ rs) (rs.foldl addToGroups gs) := by
  intro rs
  induction rs with
  | nil => intro seen gs h; simpa using h
  | cons r rs ih =>
    intro seen gs h
    have h2 := addToGroups_inv (r := r) h
    have h3 := ih (seen ++ [r]) (addToGroups gs r) h2
    simpa using h3

instance : IsTotal DocGroup groupLe :=
  ⟨fun a b => le_total b.max_similarity a.max_similarity⟩

instance : IsTrans DocGroup groupLe :=
  ⟨fun _ _ _ hab hbc => le_trans hbc hab⟩

/-- C4: `semantic_search_all` retrieves `2 * top_k` raw chunks, partitions them by
doc id (each returned group's nested chunk list is exactly the retrieved chunks with
that doc id, in retrieval order, with their individual similarities), assigns each
group the maximum similarity over its chunks, sorts groups in descending order of
that maximum, and returns at most `top_k` groups with pairwise distinct doc ids. -/
theorem C4_grouped_search_properties (ctx : Ctx) (st : RAGState) (q : Str) (top_k : Nat) :
    ((semantic_search_all ctx st q top_k).documents.length ≤ top_k) ∧
    (List.Sorted groupLe (semantic_search_all ctx st q top_k).documents) ∧
    ((semantic_search_all ctx st q top_k).documents.Pairwise
      (fun a b => a.doc_id ≠ b.doc_id)) ∧
    (∀ g ∈ (semantic_search_all ctx st q top_k).documents,
      g.top_chunks = (search_documents ctx st q (top_k * 2) none).results.filter
          (fun x => decide (x.doc_id = g.doc_id)) ∧
      g.max_similarity ∈ g.top_chunks.map (fun x => x.similarity) ∧
      (∀ x ∈ g.top_chunks, x.similarity ≤ g.max_similarity)) := by
  by_cases hres : (search_documents ctx st q (top_k * 2) none).results = []
  · refine ⟨?_, ?_, ?_, ?_⟩ <;> simp [semantic_search_all, hres]
  · have hinv : GroupsInv (search_documents ctx st q (top_k * 2) none).results
        (((search_documents ctx st q (top_k * 2) none).results).foldl addToGroups []) := by
      have h0 : GroupsInv [] [] := ⟨List.Pairwise.nil, by simp, by simp⟩
      have := foldl_addToGroups_inv
        ((search_documents ctx st q (top_k * 2) none).results) [] [] h0
      simpa using this
    have hdocs : (semantic_search_all ctx st q top_k).documents
        = (List.insertionSort groupLe
            (((search_documents ctx st q (top_k * 2) none).results).foldl addToGroups [])).take
            top_k := by
      simp [semantic_search_all, hres]
    have hperm := List.perm_insertionSort groupLe
      (((search_documents ctx st q (top_k * 2) none).results).foldl addToGroups [])
    refine ⟨?_, ?_, ?_, ?_⟩
    · rw [hdocs]
      exact List.length_take_le _ _
    · rw [hdocs]
      exact (List.sorted_insertionSort groupLe _).sublist (List.take_sublist _ _)
    · rw [hdocs]
      have hpw2 := (hperm.pairwise_iff (fun {x y} h he => h he.symm)).mpr hinv.1
      exact hpw2.sublist (List.take_sublist _ _)
    · intro g hgmem
      rw [hdocs] at hgmem
      have h1 : g ∈ List.insertionSort groupLe _ :=
        (List.take_sublist _ _).subset hgmem
      have h2 := hperm.mem_iff.mp h1
      exact hinv.2.1 g h2

/-- Witness-style instantiation of C4 at concrete inputs. -/
theorem C4_witness :
    ((semantic_search_all ctxA stA ("q".data) 2).documents.length ≤ 2) ∧
    (List.Sorted groupLe (semantic_search_all ctxA stA ("q".data) 2).documents) :=
  ⟨(C4_grouped_search_properties ctxA stA ("q".data) 2).1,
   (C4_grouped_search_properties ctxA stA ("q".data) 2).2.1⟩
theorem enumFrom_le {α : Type} :
    ∀ (n : Nat) (l : List α), ∀ p ∈ enumFrom n l, n ≤ p.1 := by
  intro n l
  induction l generalizing n with
  | nil => intro p hp; simp [enumFrom] at hp
  | cons a l ih =>
    intro p hp
    rcases List.mem_cons.mp hp with hp | hp
    · simp [hp]
    · exact le_trans (Nat.le_succ n) (ih (n + 1) p hp)

theorem enumFrom_pairwise {α : Type} :
    ∀ (n : Nat) (l : List α), (enumFrom n l).Pairwise (fun a b => a.1 < b.1) := by
  intro n l
  induction l generalizing n with
  | nil => exact List.Pairwise.nil
  | cons a l ih =>
    refine List.Pairwise.cons ?_ (ih (n + 1))
    intro p hp
    exact lt_of_lt_of_le (Nat.lt_succ_self n) (enumFrom_le (n + 1) l p hp)

theorem enumFrom_length {α : Type} :
    ∀ (n : Nat) (l : List α), (enumFrom n l).length = l.length := by
  intro n l
  induction l generalizing n with
  | nil => rfl
  | cons a l ih => simp [enumFrom, ih]

namespace ReasoningEngine

/-- The extensional ordering the stable descending score sort realizes on triples with
strictly increasing indices: higher score first, ties broken by lower original index. -/
def qaLex (a b : Nat × Nat × Str) : Prop :=
  b.2.1 < a.2.1 ∨ (b.2.1 = a.2.1 ∧ a.1 < b.1)

theorem qaLex_score_le {a b : Nat × Nat × Str} (h : qaLex a b) : b.2.1 ≤ a.2.1 := by
  rcases h with h | ⟨h, _⟩
  · exact le_of_lt h
  · exact le_of_eq h

theorem orderedInsert_qaLex {x : Nat × Nat × Str} :
    ∀ {l : List (Nat × Nat × Str)}, List.Sorted qaLex l → (∀ y ∈ l, x.1 < y.1) →
      List.Sorted qaLex (List.orderedInsert qaScoreLe x l) := by
  intro l
  induction l with
  | nil => intro _ _; simp [List.orderedInsert]
  | cons y l ih =>
    intro hs hlt
    rw [List.orderedInsert]
    by_cases hle : qaScoreLe x y
    · rw [if_pos hle]
      have hxy : qaLex x y := by
        rcases lt_or_eq_of_le hle with h | h
        · exact Or.inl h
        · exact Or.inr ⟨h, hlt y (by simp)⟩
      refine List.sorted_cons.mpr ⟨?_, hs⟩
      intro z hz
      rcases List.mem_cons.mp hz with hz | hz
      · rw [hz]; exact hxy
      · have hyz := (List.sorted_cons.mp hs).1 z hz
        have hz_le : z.2.1 ≤ x.2.1 := le_trans (qaLex_score_le hyz) hle
        rcases lt_or_eq_of_le hz_le with h | h
        · exact Or.inl h
        · exact Or.inr ⟨h, hlt z (by simp [hz])⟩
    · rw [if_neg hle]
      obtain ⟨hy_all, hs_tail⟩ := List.sorted_cons.mp hs
      have hx_lt : x.2.1 < y.2.1 := lt_of_not_le hle
      refine List.sorted_cons.mpr ⟨?_, ih hs_tail (fun z hz => hlt z (by simp [hz]))⟩
      intro z hz
      rcases (List.mem_orderedInsert qaScoreLe).mp hz with hz | hz
      · rw [hz]; exact Or.inl hx_lt
      · exact hy_all z hz

theorem insertionSort_qaLex :
    ∀ (l : List (Nat × Nat × Str)), l.Pairwise (fun a b => a.1 < b.1) →
      List.Sorted qaLex (List.insertionSort qaScoreLe l) := by
  intro l
  induction l with
  | nil => intro _; simp [List.insertionSort]
  | cons a l ih =>
    intro hpw
    obtain ⟨ha, hl⟩ := List.pairwise_cons.mp hpw
    rw [List.insertionSort]
    apply orderedInsert_qaLex (ih hl)
    intro y hy
    exact ha y ((List.perm_insertionSort qaScoreLe l).mem_iff.mp hy)

theorem qaScoredChunks_pairwise (document_text query : Str) :
    (qaScoredChunks document_text query).Pairwise (fun a b => a.1 < b.1) := by
  unfold qaScoredChunks
  rw [List.pairwise_map]
  exact enumFrom_pairwise 0 _

end ReasoningEngine

/-- C9: the `qa` analysis variant with a (truthy) query dispatches to
`_answer_document_question`, which scores each document chunk by the cardinality of
the intersection of the lowercased word sets of query and chunk (no embedding is
involved), sorts stably by descending score — extensionally: sorted by (score
descending, chunk index ascending) — and selects the first 3, so every selected chunk
lexically dominates every unselected one. -/
theorem C9_qa_lexical_selection (gen : Str → Except Str Str) (text query : Str)
    (hq : query ≠ []) :
    (ReasoningEngine.analyze_legal_document gen text ("qa".data) (some query)
      = ReasoningEngine._answer_document_question gen text query) ∧
    (ReasoningEngine.qaScoredChunks text query
      = (enumFrom 0 (ReasoningEngine._chunk_document text 1500)).map
          (fun ic => (ic.1,
            ReasoningEngine.wordOverlapScore
              ((pyWords (ReasoningEngine.pyLower query)).toFinset) ic.2, ic.2))) ∧
    ((ReasoningEngine.qaSortedChunks text query).Perm
      (ReasoningEngine.qaScoredChunks text query)) ∧
    (List.Sorted ReasoningEngine.qaLex (ReasoningEngine.qaSortedChunks text query)) ∧
    (ReasoningEngine.qaRelevantChunks text query
      = ((ReasoningEngine.qaSortedChunks text query).take 3).map (fun x => x.2.2)) ∧
    ((ReasoningEngine.qaRelevantChunks text query).length
      = min 3 (ReasoningEngine._chunk_document text 1500).length) ∧
    (∀ x ∈ (ReasoningEngine.qaSortedChunks text query).take 3,
      ∀ y ∈ (ReasoningEngine.qaSortedChunks text query).drop 3,
        ReasoningEngine.qaLex x y) := by
  have hsorted : List.Sorted ReasoningEngine.qaLex
      (ReasoningEngine.qaSortedChunks text query) :=
    ReasoningEngine.insertionSort_qaLex _
      (ReasoningEngine.qaScoredChunks_pairwise text query)
  refine ⟨?_, rfl, List.perm_insertionSort _ _, hsorted, rfl, ?_, ?_⟩
  · simp [ReasoningEngine.analyze_legal_document, hq]
  · have hlen : (ReasoningEngine.qaSortedChunks text query).length
        = (ReasoningEngine._chunk_document text 1500).length := by
      have h1 : ReasoningEngine.qaSortedChunks text query
          = List.insertionSort ReasoningEngine.qaScoreLe
              (ReasoningEngine.qaScoredChunks text query) := rfl
      have h2 : ReasoningEngine.qaScoredChunks text query
          = (enumFrom 0 (ReasoningEngine._chunk_document text 1500)).map
              (fun ic => (ic.1,
                ReasoningEngine.wordOverlapScore
                  ((pyWords (ReasoningEngine.pyLower query)).toFinset) ic.2, ic.2)) := rfl
      rw [h1, (List.perm_insertionSort _ _).length_eq, h2, List.length_map, enumFrom_length]
    have h3 : ReasoningEngine.qaRelevantChunks text query
        = ((ReasoningEngine.qaSortedChunks text query).take 3).map (fun x => x.2.2) := rfl
    rw [h3, List.length_map, List.length_take, hlen]
  · intro x hx y hy
    have := hsorted
    rw [← List.take_append_drop 3 (ReasoningEngine.qaSortedChunks text query)] at this
    exact (List.pairwise_append.mp this).2.2 x hx y hy

/-- Witness for C9 at concrete inputs. -/
theorem C9_witness :
    (("b".data : Str) ≠ []) ∧
    (ReasoningEngine.analyze_legal_document genEcho ("a b".data) ("qa".data)
        (some ("b".data))
      = ReasoningEngine._answer_document_question genEcho ("a b".data) ("b".data)) ∧
    ((ReasoningEngine.qaRelevantChunks ("a b".data) ("b".data)).length
      = min 3 (ReasoningEngine._chunk_document ("a b".data) 1500).length) :=
  ⟨by decide,
   (C9_qa_lexical_selection genEcho ("a b".data) ("b".data) (by decide)).1,
   (C9_qa_lexical_selection genEcho ("a b".data) ("b".data) (by decide)).2.2.2.2.2.1⟩

/-- The string is non-empty and starts with a non-whitespace character. -/
def headNW : Str → Prop
  | [] => False
  | c :: _ => pyIsSpace c = false

/-- The string is non-empty and ends with a non-whitespace character. -/
def lastNW (s : Str) : Prop := headNW s.reverse

theorem headNW_ne_nil {s : Str} (h : headNW s) : s ≠ [] := by
  cases s with
  | nil => exact absurd h (by simp [headNW])
  | cons c t => simp

theorem lastNW_ne_nil {s : Str} (h : lastNW s) : s ≠ [] := by
  have := headNW_ne_nil h
  intro he
  rw [he] at this
  simp at this

theorem headNW_append {a : Str} (b : Str) (h : headNW a) : headNW (a ++ b) := by
  cases a with
  | nil => exact absurd h (by simp [headNW])
  | cons c t => exact h

theorem lastNW_append (a : Str) {b : Str} (h : lastNW b) : lastNW (a ++ b) := by
  unfold lastNW at h ⊢
  rw [List.reverse_append]
  exact headNW_append _ h

theorem dropWhile_of_headNW {s : Str} (h : headNW s) : s.dropWhile pyIsSpace = s := by
  cases s with
  | nil => rfl
  | cons c t =>
    have : pyIsSpace c = false := h
    simp [List.dropWhile, this]

theorem dropWhile_append_of_ne_nil {a : Str} (b : Str)
    (h : a.dropWhile pyIsSpace ≠ []) :
    (a ++ b).dropWhile pyIsSpace = a.dropWhile pyIsSpace ++ b := by
  induction a with
  | nil => exact absurd rfl h
  | cons c t ih =>
    by_cases hc : pyIsSpace c
    · have h2 : t.dropWhile pyIsSpace ≠ [] := by
        rwa [List.dropWhile_cons_of_pos hc] at h
      rw [List.cons_append, List.dropWhile_cons_of_pos hc, List.dropWhile_cons_of_pos hc]
      exact ih h2
    · rw [List.cons_append, List.dropWhile_cons_of_neg hc, List.dropWhile_cons_of_neg hc]
      simp

theorem dropWhile_allWs_append {w : Str} (x : Str) (hw : allWs w) :
    (w ++ x).dropWhile pyIsSpace = x.dropWhile pyIsSpace := by
  induction w with
  | nil => rfl
  | cons c t ih =>
    have hc : pyIsSpace c := hw c (by simp)
    rw [List.cons_append, List.dropWhile_cons_of_pos hc]
    exact ih (fun d hd => hw d (by simp [hd]))

theorem dropWhile_headNW (s : Str) :
    s.dropWhile pyIsSpace = [] ∨ headNW (s.dropWhile pyIsSpace) := by
  induction s with
  | nil => exact Or.inl rfl
  | cons c t ih =>
    by_cases hc : pyIsSpace c
    · rw [List.dropWhile_cons_of_pos hc]
      exact ih
    · rw [List.dropWhile_cons_of_neg hc]
      exact Or.inr (by simpa [headNW] using hc)

theorem pyStrip_of_edges {s : Str} (hh : headNW s) (hl : lastNW s) : pyStrip s = s := by
  unfold pyStrip
  rw [dropWhile_of_headNW hh, dropWhile_of_headNW hl, List.reverse_reverse]

theorem pyStrip_append_allWs {x w : Str} (hw : allWs w) : pyStrip (x ++ w) = pyStrip x := by
  unfold pyStrip
  cases hdx : x.dropWhile pyIsSpace with
  | nil =>
    have h1 : (x ++ w).dropWhile pyIsSpace = w.dropWhile pyIsSpace := by
      have hx : allWs x := by
        intro c hc
        by_contra hcc
        have := List.dropWhile_eq_nil_iff.mp hdx c hc
        exact hcc this
      exact dropWhile_allWs_append w hx
    rw [h1]
    have h2 : w.dropWhile pyIsSpace = [] := List.dropWhile_eq_nil_iff.mpr hw
    simp [h2, hdx]
  | cons c t =>
    have h1 : (x ++ w).dropWhile pyIsSpace = x.dropWhile pyIsSpace ++ w :=
      dropWhile_append_of_ne_nil w (by simp [hdx])
    rw [h1, hdx]
    rw [List.reverse_append]
    have hwrev : allWs w.reverse := fun d hd => hw d (List.mem_reverse.mp hd)
    rw [dropWhile_allWs_append _ hwrev]

theorem pyStrip_allWs_prepend {w x : Str} (hw : allWs w) : pyStrip (w ++ x) = pyStrip x := by
  unfold pyStrip
  rw [dropWhile_allWs_append x hw]

/-- Stripping only removes edge whitespace, so the whitespace-split words agree. -/
theorem wordsAux_allWs_flush {w : Str} (hw : allWs w) :
    ∀ cur : Str, wordsAux w cur = if cur = [] then [] else [cur.reverse] := by
  induction w with
  | nil => intro cur; rfl
  | cons c t ih =>
    intro cur
    have hc : pyIsSpace c := hw c (by simp)
    have ht : allWs t := fun d hd => hw d (by simp [hd])
    by_cases hcur : cur = []
    · simp [wordsAux, hc, hcur, ih ht]
    · simp [wordsAux, hc, hcur, ih ht]

theorem wordsAux_append_allWs {w : Str} (hw : allWs w) :
    ∀ (s cur : Str), wordsAux (s ++ w) cur = wordsAux s cur := by
  intro s
  induction s with
  | nil =>
    intro cur
    rw [List.nil_append, wordsAux_allWs_flush hw cur]
    rfl
  | cons c t ih =>
    intro cur
    by_cases hc : pyIsSpace c <;> by_cases hcur : cur = [] <;>
      simp [wordsAux, hc, hcur, ih]

theorem pyWords_append_allWs {x w : Str} (hw : allWs w) : pyWords (x ++ w) = pyWords x :=
  wordsAux_append_allWs hw x []

theorem pyWords_prepend_allWs {w x : Str} (hw : allWs w) : pyWords (w ++ x) = pyWords x := by
  unfold pyWords
  induction w with
  | nil => rfl
  | cons c t ih =>
    have hc : pyIsSpace c := hw c (by simp)
    have ht : allWs t := fun d hd => hw d (by simp [hd])
    simp [wordsAux, hc, ih ht]

theorem allWs_takeWhile (s : Str) : allWs (s.takeWhile pyIsSpace) :=
  fun c hc => List.mem_takeWhile_imp hc

theorem pyWords_strip (s : Str) : pyWords (pyStrip s) = pyWords s := by
  have h1 : s = s.takeWhile pyIsSpace ++ s.dropWhile pyIsSpace :=
    (List.takeWhile_append_dropWhile pyIsSpace s).symm
  have h2 : pyWords s = pyWords (s.dropWhile pyIsSpace) := by
    conv_lhs => rw [h1]
    exact pyWords_prepend_allWs (allWs_takeWhile s)
  set d := s.dropWhile pyIsSpace with hd
  have h3 : d = pyStrip s ++ (d.reverse.takeWhile pyIsSpace).reverse := by
    unfold pyStrip
    rw [← hd]
    conv_lhs => rw [← List.reverse_reverse d]
    rw [← List.reverse_append]
    congr 1
    exact (List.takeWhile_append_dropWhile pyIsSpace d.reverse).symm
  have h4 : allWs (d.reverse.takeWhile pyIsSpace).reverse :=
    fun c hc => allWs_takeWhile d.reverse c (List.mem_reverse.mp hc)
  rw [h2]
  have h5 : pyWords d = pyWords (pyStrip s) := by
    conv_lhs => rw [h3]
    exact pyWords_append_allWs h4
  rw [h5]

/-- A clean paragraph (equal to its own strip, non-empty) has non-whitespace edges. -/
theorem clean_headNW {p : Str} (hne : p ≠ []) (hst : pyStrip p = p) : headNW p := by
  have hlen : p.length ≤ (p.dropWhile pyIsSpace).length := by
    conv_lhs => rw [← hst]
    unfold pyStrip
    rw [List.length_reverse]
    exact le_trans ((List.dropWhile_suffix _).sublist.length_le) (by rw [List.length_reverse])
  have hdw : p.dropWhile pyIsSpace = p :=
    (List.dropWhile_suffix pyIsSpace).eq_of_length
      (le_antisymm ((List.dropWhile_suffix _).sublist.length_le) hlen)
  rcases dropWhile_headNW p with h | h
  · rw [hdw] at h
    exact absurd h hne
  · rwa [hdw] at h

theorem clean_lastNW {p : Str} (hne : p ≠ []) (hst : pyStrip p = p) : lastNW p := by
  have hh := clean_headNW hne hst
  have hdw : p.dropWhile pyIsSpace = p := dropWhile_of_headNW hh
  have hrev : p.reverse.dropWhile pyIsSpace = p.reverse := by
    unfold pyStrip at hst
    rw [hdw] at hst
    conv_rhs => rw [← hst]
    rw [List.reverse_reverse]
  rcases dropWhile_headNW p.reverse with h | h
  · rw [hrev] at h
    exact absurd (by simpa using h) hne
  · rwa [hrev] at h

theorem splitPara_ne_nil (s : Str) : splitPara s ≠ [] := by
  induction s using splitPara.induct with
  | case1 => simp [splitPara]
  | case2 c => simp [splitPara]
  | case3 c1 c2 rest hif ih => rw [splitPara, if_pos hif]; simp
  | case4 c1 c2 rest hif heq ih => rw [splitPara, if_neg hif, heq]; simp
  | case5 c1 c2 rest hif p ps heq ih => rw [splitPara, if_neg hif, heq]; simp

/-- The head piece of `splitPara (c :: s)` is either empty (leading separator) or
starts with `c`. -/
theorem splitPara_head_shape (c : Char) (s : Str) :
    (∃ ps, splitPara (c :: s) = [] :: ps) ∨
    (∃ p ps, splitPara (c :: s) = (c :: p) :: ps) := by
  cases s with
  | nil => exact Or.inr ⟨[], [], rfl⟩
  | cons c2 rest =>
    by_cases hif : c = '\n' ∧ c2 = '\n'
    · rw [splitPara, if_pos hif]
      exact Or.inl ⟨splitPara rest, rfl⟩
    · rw [splitPara, if_neg hif]
      cases heq : splitPara (c2 :: rest) with
      | nil => exact absurd heq (splitPara_ne_nil _)
      | cons p ps => exact Or.inr ⟨p, ps, rfl⟩

theorem splitPara_no_nl2 : ∀ (s : Str), ∀ p ∈ splitPara s, hasNl2 p = false := by
  intro s
  induction s using splitPara.induct with
  | case1 => intro p hp; simp [splitPara] at hp; simp [hp, hasNl2]
  | case2 c => intro p hp; simp [splitPara] at hp; simp [hp, hasNl2]
  | case3 c1 c2 rest hif ih =>
    intro p hp
    rw [splitPara, if_pos hif] at hp
    rcases List.mem_cons.mp hp with hp | hp
    · simp [hp, hasNl2]
    · exact ih p hp
  | case4 c1 c2 rest hif heq ih =>
    exact absurd heq (splitPara_ne_nil _)
  | case5 c1 c2 rest hif p0 ps heq ih =>
    intro p hp
    rw [splitPara, if_neg hif, heq] at hp
    rcases List.mem_cons.mp hp with hp | hp
    · subst hp
      have hp0 : hasNl2 p0 = false := ih p0 (by rw [heq]; simp)
      cases hp0s : p0 with
      | nil => simp [hasNl2]
      | cons d t =>
        have hd : d = c2 := by
          rcases splitPara_head_shape c2 rest with ⟨ps2, hs2⟩ | ⟨p2, ps2, hs2⟩
          · rw [hs2] at heq
            injection heq with h1 _
            rw [← h1] at hp0s
            simp at hp0s
          · rw [hs2] at heq
            injection heq with h1 _
            rw [← h1] at hp0s
            injection hp0s with h2 _
            exact h2.symm
        show ((c1 = '\n' && d = '\n') || hasNl2 (d :: t)) = false
        rw [← hp0s, hp0]
        simp only [Bool.or_false]
        by_cases h1 : c1 = '\n'
        · have h2 : ¬ d = '\n' := by
            rw [hd]
            intro h2
            exact hif ⟨h1, h2⟩
          simp [h1, h2]
        · simp [h1]
    · exact ih p (by rw [heq]; exact List.mem_cons_of_mem _ hp)

theorem splitPara_singleton {p : Str} (h : hasNl2 p = false) : splitPara p = [p] := by
  induction p using splitPara.induct with
  | case1 => rfl
  | case2 c => rfl
  | case3 c1 c2 rest hif ih =>
    exfalso
    rw [hasNl2] at h
    simp [hif.1, hif.2] at h
  | case4 c1 c2 rest hif heq ih =>
    exact absurd heq (splitPara_ne_nil _)
  | case5 c1 c2 rest hif p0 ps heq ih =>
    have ht : hasNl2 (c2 :: rest) = false := by
      rw [hasNl2] at h
      rcases Bool.or_eq_false_iff.mp h with ⟨_, h2⟩
      exact h2
    have := ih ht
    rw [heq] at this
    injection this with h1 h2
    rw [splitPara, if_neg hif, heq, h1, h2]

theorem hasNl2_cons_tail {c : Char} {s : Str} (h : hasNl2 (c :: s) = false) :
    hasNl2 s = false := by
  cases s with
  | nil => rfl
  | cons d t =>
    rw [hasNl2] at h
    exact (Bool.or_eq_false_iff.mp h).2

theorem lastNW_cons {c : Char} {s : Str} (hs : s ≠ []) (h : lastNW (c :: s)) : lastNW s := by
  unfold lastNW at h ⊢
  rw [List.reverse_cons] at h
  cases hrev : s.reverse with
  | nil => exact absurd (by simpa using hrev) hs
  | cons d t =>
    rw [hrev] at h
    exact h

theorem splitPara_sep {p t : Str} (hn : hasNl2 p = false) (hl : lastNW p)
    (ht : headNW t) : splitPara (p ++ nl2 ++ t) = p :: splitPara t := by
  induction p with
  | nil => exact absurd hl (by simp [lastNW, headNW])
  | cons c s ih =>
    cases s with
    | nil =>
      have hc : pyIsSpace c = false := by
        unfold lastNW headNW at hl
        simpa using hl
      have hcn : ¬(c = '\n' ∧ '\n' = '\n') := by
        intro ⟨h1, _⟩
        rw [h1] at hc
        simp [pyIsSpace] at hc
      show splitPara (c :: '\n' :: ('\n' :: t)) = [c] :: splitPara t
      rw [splitPara, if_neg hcn]
      have hd : splitPara ('\n' :: ('\n' :: t)) = [] :: splitPara t := by
        cases t with
        | nil => rfl
        | cons u v =>
          rw [splitPara]
          rw [if_pos ⟨rfl, rfl⟩]
      rw [hd]
    | cons c2 s2 =>
      have hif : ¬(c = '\n' ∧ c2 = '\n') := by
        intro ⟨h1, h2⟩
        rw [hasNl2, h1, h2] at hn
        simp at hn
      have ihr := ih (hasNl2_cons_tail hn) (lastNW_cons (by simp) hl)
      show splitPara (c :: (c2 :: s2 ++ nl2 ++ t)) = (c :: c2 :: s2) :: splitPara t
      have : c :: (c2 :: s2 ++ nl2 ++ t) = c :: c2 :: (s2 ++ nl2 ++ t) := by simp
      rw [this, splitPara, if_neg hif]
      have harg : c2 :: (s2 ++ nl2 ++ t) = c2 :: s2 ++ nl2 ++ t := by simp
      rw [harg, ihr]

/-- A clean paragraph: non-empty, free of edge whitespace, and containing no
double-newline. -/
def cleanP (p : Str) : Prop := p ≠ [] ∧ pyStrip p = p ∧ hasNl2 p = false

instance (p : Str) : Decidable (cleanP p) := inferInstanceAs (Decidable (_ ∧ _ ∧ _))

theorem joinPara_headNW : ∀ {segs : List Str}, segs ≠ [] → (∀ p ∈ segs, cleanP p) →
    headNW (joinPara segs) := by
  intro segs
  induction segs with
  | nil => intro h _; exact absurd rfl h
  | cons p rest ih =>
    intro _ hc
    have hp := hc p (by simp)
    have hh : headNW p := clean_headNW hp.1 hp.2.1
    cases rest with
    | nil => exact hh
    | cons q r =>
      show headNW (p ++ nl2 ++ joinPara (q :: r))
      rw [List.append_assoc]
      exact headNW_append _ hh

theorem joinPara_lastNW : ∀ {segs : List Str}, segs ≠ [] → (∀ p ∈ segs, cleanP p) →
    lastNW (joinPara segs) := by
  intro segs
  induction segs with
  | nil => intro h _; exact absurd rfl h
  | cons p rest ih =>
    intro _ hc
    have hp := hc p (by simp)
    cases rest with
    | nil => exact clean_lastNW hp.1 hp.2.1
    | cons q r =>
      show lastNW (p ++ nl2 ++ joinPara (q :: r))
      rw [List.append_assoc]
      exact lastNW_append _ (lastNW_append _ (ih (by simp) (fun x hx => hc x (by simp [hx]))))

theorem joinPara_ne_nil {segs : List Str} (h : segs ≠ []) (hc : ∀ p ∈ segs, cleanP p) :
    joinPara segs ≠ [] :=
  headNW_ne_nil (joinPara_headNW h hc)

theorem joinPara_append_singleton :
    ∀ {segs : List Str}, segs ≠ [] → ∀ (p : Str),
      joinPara (segs ++ [p]) = joinPara segs ++ nl2 ++ p := by
  intro segs
  induction segs with
  | nil => intro h _; exact absurd rfl h
  | cons q rest ih =>
    intro _ p
    cases rest with
    | nil => rfl
    | cons r rs =>
      show joinPara (q :: (r :: rs ++ [p])) = (q ++ nl2 ++ joinPara (r :: rs)) ++ nl2 ++ p
      have h1 : joinPara (q :: (r :: rs ++ [p])) = q ++ nl2 ++ joinPara (r :: rs ++ [p]) := by
        cases rs <;> rfl
      rw [h1, ih (by simp) p]
      simp [List.append_assoc]

theorem splitPara_joinPara : ∀ {segs : List Str}, segs ≠ [] →
    (∀ p ∈ segs, cleanP p) → splitPara (joinPara segs) = segs := by
  intro segs
  induction segs with
  | nil => intro h _; exact absurd rfl h
  | cons p rest ih =>
    intro _ hc
    have hp := hc p (by simp)
    cases rest with
    | nil => exact splitPara_singleton hp.2.2
    | cons q r =>
      show splitPara (p ++ nl2 ++ joinPara (q :: r)) = p :: (q :: r)
      rw [splitPara_sep hp.2.2 (clean_lastNW hp.1 hp.2.1)
        (joinPara_headNW (by simp) (fun x hx => hc x (by simp [hx])))]
      rw [ih (by simp) (fun x hx => hc x (by simp [hx]))]

theorem pyStrip_joinPara {segs : List Str} (h : segs ≠ []) (hc : ∀ p ∈ segs, cleanP p) :
    pyStrip (joinPara segs) = joinPara segs :=
  pyStrip_of_edges (joinPara_headNW h hc) (joinPara_lastNW h hc)

/-- Resolve one chunk text against the overlap seed carried into it: drop the seed
and the single newline that `_chunk_text` put between seed and first paragraph. -/
def resolveOne (seed t : Str) : Str := if seed = [] then t else t.drop (seed.length + 1)

/-- The seed in force after a run of emitted chunks: recomputed from each chunk's
text by the same `overlap // 5` trailing-words rule the chunker itself uses. -/
def seedAfter (ov : Nat) : Str → List Chunk → Str
  | seed, [] => seed
  | _, c :: cs => seedAfter ov (ovText ov c.text) cs

/-- Overlap-aware concatenation: resolve each chunk text against its incoming seed
and re-split the resolved text into paragraphs. -/
def recoverParas (ov : Nat) : Str → List Chunk → List Str
  | _, [] => []
  | seed, c :: cs => splitPara (resolveOne seed c.text) ++ recoverParas ov (ovText ov c.text) cs

/-- Overlap-aware recovery of the whole chunk sequence (initial seed empty). -/
def recoverAll (ov : Nat) (cs : List Chunk) : List Str := recoverParas ov [] cs

theorem seedAfter_append (ov : Nat) :
    ∀ (xs : List Chunk) (seed : Str) (c : Chunk),
      seedAfter ov seed (xs ++ [c]) = ovText ov c.text := by
  intro xs
  induction xs with
  | nil => intro seed c; rfl
  | cons x xs ih => intro seed c; exact ih _ c

theorem recoverParas_append (ov : Nat) :
    ∀ (xs ys : List Chunk) (seed : Str),
      recoverParas ov seed (xs ++ ys)
        = recoverParas ov seed xs ++ recoverParas ov (seedAfter ov seed xs) ys := by
  intro xs
  induction xs with
  | nil => intro ys seed; rfl
  | cons x xs ih =>
    intro ys seed
    show splitPara (resolveOne seed x.text) ++ recoverParas ov (ovText ov x.text) (xs ++ ys) = _
    rw [ih ys (ovText ov x.text)]
    simp [recoverParas, seedAfter, List.append_assoc]

/-- Every whitespace-split word is non-empty and wholly non-whitespace. -/
theorem pyWords_tokens :
    ∀ (s cur : Str), (∀ c ∈ cur, pyIsSpace c = false) →
      ∀ w ∈ wordsAux s cur, w ≠ [] ∧ ∀ c ∈ w, pyIsSpace c = false := by
  intro s
  induction s with
  | nil =>
    intro cur hcur w hw
    rw [wordsAux] at hw
    split at hw
    · simp at hw
    · simp at hw
      subst hw
      constructor
      · simpa using (by assumption : ¬cur = [])
      · intro c hc
        exact hcur c (List.mem_reverse.mp hc)
  | cons c t ih =>
    intro cur hcur w hw
    rw [wordsAux] at hw
    by_cases hc : pyIsSpace c
    · rw [if_pos hc] at hw
      by_cases hcur0 : cur = []
      · rw [if_pos hcur0] at hw
        exact ih [] (by simp) w hw
      · rw [if_neg hcur0] at hw
        rcases List.mem_cons.mp hw with hw | hw
        · subst hw
          refine ⟨by simpa using hcur0, ?_⟩
          intro d hd
          exact hcur d (List.mem_reverse.mp hd)
        · exact ih [] (by simp) w hw
    · rw [if_neg hc] at hw
      refine ih (c :: cur) ?_ w hw
      intro d hd
      rcases List.mem_cons.mp hd with hd | hd
      · rw [hd]
        simpa using hc
      · exact hcur d hd

theorem joinSpace_edges :
    ∀ {ws : List Str}, ws ≠ [] →
      (∀ w ∈ ws, w ≠ [] ∧ ∀ c ∈ w, pyIsSpace c = false) →
      headNW (joinSpace ws) ∧ lastNW (joinSpace ws) := by
  intro ws
  induction ws with
  | nil => intro h _; exact absurd rfl h
  | cons w rest ih =>
    intro _ hts
    have hw := hts w (by simp)
    have hwh : headNW w := by
      cases hwe : w with
      | nil => exact absurd hwe hw.1
      | cons c t =>
        show pyIsSpace c = false
        exact hw.2 c (by rw [hwe]; simp)
    have hwl : lastNW w := by
      cases hwe : w.reverse with
      | nil => exact absurd (by simpa using hwe) hw.1
      | cons c t =>
        show headNW w.reverse
        rw [hwe]
        show pyIsSpace c = false
        exact hw.2 c (by
          have : c ∈ w.reverse := by rw [hwe]; simp
          exact List.mem_reverse.mp this)
    cases rest with
    | nil => exact ⟨hwh, hwl⟩
    | cons q r =>
      have ihr := ih (by simp) (fun x hx => hts x (by simp [hx]))
      constructor
      · show headNW (w ++ ' ' :: joinSpace (q :: r))
        exact headNW_append _ hwh
      · show lastNW (w ++ ' ' :: joinSpace (q :: r))
        have : (' ' :: joinSpace (q :: r)) = [' '] ++ joinSpace (q :: r) := rfl
        rw [this]
        exact lastNW_append _ (lastNW_append _ ihr.2)

/-- The overlap seed is empty or has non-whitespace edges. -/
theorem ovText_edges (ov : Nat) (cur : Str) :
    ovText ov cur = [] ∨ (headNW (ovText ov cur) ∧ lastNW (ovText ov cur)) := by
  unfold ovText
  by_cases hcond : (pyWords cur).length > ov / 5
  · rw [if_pos hcond]
    right
    apply joinSpace_edges
    · unfold pyLastSlice
      by_cases hk : ov / 5 = 0
      · rw [if_pos hk]
        intro he
        rw [he] at hcond
        simp [hk] at hcond
      · rw [if_neg hk]
        intro he
        have := List.length_drop ((pyWords cur).length - (ov / 5)) (pyWords cur)
        rw [he] at this
        simp at this
        omega
    · intro w hw
      have hmem : w ∈ pyWords cur := by
        unfold pyLastSlice at hw
        split at hw
        · exact hw
        · exact List.mem_of_mem_drop hw
      exact pyWords_tokens cur [] (by simp) w hmem
  · rw [if_neg hcond]
    exact Or.inl rfl

/-- The seed recomputed from the emitted (stripped) text coincides with the seed the
chunker computed from the unstripped buffer. -/
theorem ovText_strip (ov : Nat) (cur : Str) : ovText ov (pyStrip cur) = ovText ov cur := by
  unfold ovText
  rw [pyWords_strip]

theorem seedAfter_edges (ov : Nat) :
    ∀ (xs : List Chunk) (seed : Str), xs ≠ [] →
      seedAfter ov seed xs = [] ∨
      (headNW (seedAfter ov seed xs) ∧ lastNW (seedAfter ov seed xs)) := by
  intro xs
  induction xs with
  | nil => intro seed h; exact absurd rfl h
  | cons c cs ih =>
    intro seed _
    cases cs with
    | nil => exact ovText_edges ov c.text
    | cons d ds => exact ih (ovText ov c.text) (by simp)

theorem resolve_formB {sd : Str} {curSeg : List Str} (hne : curSeg ≠ [])
    (hcl : ∀ p ∈ curSeg, cleanP p)
    (hsd : sd = [] ∨ (headNW sd ∧ lastNW sd)) :
    splitPara (resolveOne sd (pyStrip (sd ++ '\n' :: (joinPara curSeg ++ nl2)))) = curSeg := by
  rcases hsd with hsd | ⟨hh, hl⟩
  · subst hsd
    rw [List.nil_append]
    have h1 : ('\n' :: (joinPara curSeg ++ nl2)) = ['\n'] ++ (joinPara curSeg ++ nl2) := rfl
    rw [h1, pyStrip_allWs_prepend (by intro c hc; simp at hc; simp [hc, pyIsSpace])]
    rw [pyStrip_append_allWs allWs_nl2, pyStrip_joinPara hne hcl]
    show splitPara (joinPara curSeg) = curSeg
    exact splitPara_joinPara hne hcl
  · have hsdnn : sd ≠ [] := headNW_ne_nil hh
    have h1 : sd ++ '\n' :: (joinPara curSeg ++ nl2)
        = (sd ++ '\n' :: joinPara curSeg) ++ nl2 := by simp
    rw [h1, pyStrip_append_allWs allWs_nl2]
    have h2 : pyStrip (sd ++ '\n' :: joinPara curSeg) = sd ++ '\n' :: joinPara curSeg := by
      apply pyStrip_of_edges (headNW_append _ hh)
      have h3 : sd ++ '\n' :: joinPara curSeg = sd ++ ['\n'] ++ joinPara curSeg := by simp
      rw [h3]
      exact lastNW_append _ (joinPara_lastNW hne hcl)
    rw [h2]
    unfold resolveOne
    rw [if_neg hsdnn]
    have h4 : sd ++ '\n' :: joinPara curSeg = (sd ++ ['\n']) ++ joinPara curSeg := by simp
    have h5 : sd.length + 1 = (sd ++ ['\n']).length := by simp
    rw [h4, h5, List.drop_left]
    exact splitPara_joinPara hne hcl

theorem emit_recover {ov : Nat} {chunks : List Chunk} {cur : Str} {curSeg : List Str}
    (hne : curSeg ≠ []) (hcl : ∀ p ∈ curSeg, cleanP p)
    (hform : (chunks = [] ∧ cur = joinPara curSeg ++ nl2) ∨
             (chunks ≠ [] ∧
               cur = seedAfter ov [] chunks ++ '\n' :: (joinPara curSeg ++ nl2)))
    {c : Chunk} (hc : c.text = pyStrip cur) :
    recoverParas ov (seedAfter ov [] chunks) [c] = curSeg := by
  show splitPara (resolveOne (seedAfter ov [] chunks) c.text)
      ++ recoverParas ov (ovText ov c.text) [] = curSeg
  rw [show recoverParas ov (ovText ov c.text) [] = [] from rfl, List.append_nil]
  rcases hform with ⟨hch, hcur⟩ | ⟨hch, hcur⟩
  · rw [hch, hc, hcur, pyStrip_append_allWs allWs_nl2, pyStrip_joinPara hne hcl]
    show splitPara (joinPara curSeg) = curSeg
    exact splitPara_joinPara hne hcl
  · rw [hc, hcur]
    exact resolve_formB hne hcl (seedAfter_edges ov chunks [] hch)

/-- Invariant of the `_chunk_text` fold after processing a non-empty prefix of clean
paragraphs: the emitted chunks recover exactly the paragraphs already sealed, and the
running buffer is the seed (for a non-first chunk) plus the joined current segment. -/
def CInv (ov : Nat) (done : List Str) (st : CState) : Prop :=
  ∃ (doneE curSeg : List Str),
    done = doneE ++ curSeg ∧ curSeg ≠ [] ∧ (∀ p ∈ curSeg, cleanP p) ∧
    recoverParas ov [] st.chunks = doneE ∧
    ((st.chunks = [] ∧ st.cur = joinPara curSeg ++ nl2) ∨
     (st.chunks ≠ [] ∧
       st.cur = seedAfter ov [] st.chunks ++ '\n' :: (joinPara curSeg ++ nl2)))

theorem CInv_cur_ne_nil {ov : Nat} {done : List Str} {st : CState}
    (hinv : CInv ov done st) : st.cur ≠ [] := by
  obtain ⟨doneE, curSeg, _, _, _, _, hform⟩ := hinv
  rcases hform with ⟨_, hcur⟩ | ⟨_, hcur⟩ <;> rw [hcur] <;> simp [nl2]

theorem chunkStep_CInv (cs ov : Nat) {done : List Str} {st : CState} {para : Str}
    (hp : cleanP para) (hinv : CInv ov done st) :
    CInv ov (done ++ [para]) (chunkStep cs ov st para) := by
  have hcurne := CInv_cur_ne_nil hinv
  obtain ⟨doneE, curSeg, hdone, hne, hcl, hrec, hform⟩ := hinv
  unfold chunkStep
  by_cases hfits : st.cur.length + para.length ≤ cs
  · rw [if_pos hfits]
    refine ⟨doneE, curSeg ++ [para], by simp [hdone], by simp, ?_, hrec, ?_⟩
    · intro x hx
      rcases List.mem_append.mp hx with hx | hx
      · exact hcl x hx
      · simp at hx
        rw [hx]
        exact hp
    · rcases hform with ⟨hch, hcur⟩ | ⟨hch, hcur⟩
      · left
        refine ⟨hch, ?_⟩
        rw [hcur, joinPara_append_singleton hne para]
        try simp
      · right
        refine ⟨hch, ?_⟩
        rw [hcur, joinPara_append_singleton hne para]
        try simp
  · rw [if_neg hfits, if_pos hcurne]
    refine ⟨doneE ++ curSeg, [para], by simp [hdone], by simp,
      by intro x hx; simp at hx; rw [hx]; exact hp, ?_, ?_⟩
    · rw [recoverParas_append, hrec]
      congr 1
      exact emit_recover hne hcl hform rfl
    · right
      refine ⟨by simp, ?_⟩
      rw [seedAfter_append]
      show ovText ov st.cur ++ '\n' :: (para ++ nl2)
          = ovText ov (pyStrip st.cur) ++ '\n' :: (joinPara [para] ++ nl2)
      rw [ovText_strip]
      rfl

theorem chunkStep_init {cs ov : Nat} {para : Str} (hp : cleanP para) :
    CInv ov [para] (chunkStep cs ov ⟨[], [], 0⟩ para) := by
  have hforms : ∀ st2 : CState, st2.chunks = [] → st2.cur = para ++ nl2 →
      CInv ov [para] st2 := by
    intro st2 hch hcur
    exact ⟨[], [para], rfl, by simp, by intro x hx; simp at hx; rw [hx]; exact hp,
      by rw [hch]; rfl, Or.inl ⟨hch, by rw [hcur]; rfl⟩⟩
  unfold chunkStep
  by_cases hfits : ([] : Str).length + para.length ≤ cs
  · rw [if_pos hfits]
    exact hforms _ rfl (by simp)
  · rw [if_neg hfits, if_neg (by simp)]
    exact hforms _ rfl rfl

theorem foldl_CInv (cs ov : Nat) :
    ∀ (ps : List Str) (done : List Str) (st : CState), (∀ p ∈ ps, cleanP p) →
      CInv ov done st → CInv ov (done ++ ps) (ps.foldl (chunkStep cs ov) st) := by
  intro ps
  induction ps with
  | nil => intro done st _ h; simpa using h
  | cons p ps ih =>
    intro done st hps h
    have h2 := chunkStep_CInv cs ov (hps p (by simp)) h
    have h3 := ih (done ++ [p]) _ (fun q hq => hps q (by simp [hq])) h2
    simpa using h3

theorem chunkFinish_recover {ov : Nat} {done : List Str} {st : CState}
    (hinv : CInv ov done st) : recoverAll ov (chunkFinish st) = done := by
  have hcurne := CInv_cur_ne_nil hinv
  obtain ⟨doneE, curSeg, hdone, hne, hcl, hrec, hform⟩ := hinv
  unfold chunkFinish
  rw [if_pos hcurne]
  unfold recoverAll
  rw [recoverParas_append, hrec, hdone]
  congr 1
  exact emit_recover hne hcl hform rfl

/-- C8 amended: for every text all of whose paragraphs (split on double newline) are
non-empty and free of leading/trailing whitespace, the paragraph-aware chunker
followed by overlap-aware concatenation — dropping from each chunk its carried-over
seed of `overlap // 5` trailing words (recomputed from the previous chunk's text) and
re-splitting on double newline — recovers every paragraph exactly once, in order. -/
theorem C8_roundtrip (text : Str) (cs ov : Nat)
    (hclean : ∀ p ∈ splitPara text, p ≠ [] ∧ pyStrip p = p) :
    recoverAll ov (_chunk_text text cs ov) = splitPara text := by
  have hcp : ∀ p ∈ splitPara text, cleanP p :=
    fun p hp => ⟨(hclean p hp).1, (hclean p hp).2, splitPara_no_nl2 text p hp⟩
  cases hsp : splitPara text with
  | nil => exact absurd hsp (splitPara_ne_nil text)
  | cons p0 rest =>
    unfold _chunk_text
    rw [hsp, List.foldl_cons]
    have h0 : CInv ov [p0] (chunkStep cs ov ⟨[], [], 0⟩ p0) :=
      chunkStep_init (hcp p0 (by rw [hsp]; simp))
    have h1 := foldl_CInv cs ov rest [p0] _
      (fun p hp => hcp p (by rw [hsp]; simp [hp])) h0
    have h2 := chunkFinish_recover h1
    simpa using h2

/-- A text whose middle paragraph is a single space, sized to force a chunk boundary
right after the first paragraph. -/
def textC8 : Str := List.replicate 499 'a' ++ ("\n\n \n\nb".data)

set_option maxRecDepth 10000 in
theorem C8_counterexample :
    ((_chunk_text textC8 500 100).map (fun c => c.text)
      = [List.replicate 499 'a', "b".data]) ∧
    (splitPara textC8 = [List.replicate 499 'a', " ".data, "b".data]) ∧
    (recoverAll 100 (_chunk_text textC8 500 100) ≠ splitPara textC8) := by
  decide

theorem C8_witness :
    (∀ p ∈ splitPara ("ab\n\ncd".data), p ≠ [] ∧ pyStrip p = p) ∧
    recoverAll 100 (_chunk_text ("ab\n\ncd".data) 500 100) = splitPara ("ab\n\ncd".data) :=
  ⟨by decide, C8_roundtrip ("ab\n\ncd".data) 500 100 (by decide)⟩
